import Mathlib

/-!
Shallow embedding of the prime-field element type generated by the `impl_Fp`
macro in `src/ff/src/fields/macros.rs`, together with proofs about it.

A `BigInteger` with `L` 64-bit limbs is embedded as a `List Nat` of length `L`
(little-endian), each entry below `W = 2 ^ 64`.  The carry/borrow macros
`adc!`, `sbb!`, `mac_with_carry!` of the repository's arithmetic layer (they
are not part of `src/`; the spec, section 4.1/4.2, describes them as
carry-chained limb add / subtract / multiply-accumulate) are embedded
arithmetically: low word `% W`, carry `/ W`.
-/

namespace ArkFp

/-- The limb radix: limbs are 64-bit words. -/
def W : Nat := 2 ^ 64

/-- Little-endian value of a limb list. -/
def bigVal : List Nat → Nat
  | [] => 0
  | x :: xs => x + W * bigVal xs

/-- Well-formed limb lists: every limb is a 64-bit value. -/
def wfLimbs (xs : List Nat) : Prop := ∀ x ∈ xs, x < W

/-!
BigInteger primitives.  `sub_noborrow` mirrors the `const fn sub_noborrow` of
`src/ff/src/fields/macros.rs` (an `sbb!` chain); the remaining operations
(`add_nocarry`, `mul2`, `div2`, `is_even`, `is_zero`, the lexicographic
comparison) are methods of the `BigInteger` type that is not part of `src/`.
Modelled from the spec, section 4.1: add/sub chain carry/borrow across limbs
with no overflow check, `mul2`/`div2` shift by one bit propagating carry
across limb boundaries, `is_even`/`is_zero` are limb/bit tests, comparison is
lexicographic from the most-significant limb.
-/

/-- Carry-chained limb addition; the final carry is dropped (`add_nocarry`). -/
def add_nocarry : List Nat → List Nat → Nat → List Nat
  | x :: xs, y :: ys, c => (x + y + c) % W :: add_nocarry xs ys ((x + y + c) / W)
  | _, _, _ => []

/-- Borrow-chained limb subtraction; the final borrow is dropped
(`sub_noborrow`, an `sbb!` chain: `t = W + x - y - borrow`). -/
def sub_noborrow : List Nat → List Nat → Nat → List Nat
  | x :: xs, y :: ys, br =>
    (W + x - y - br) % W :: sub_noborrow xs ys (if W + x - y - br < W then 1 else 0)
  | _, _, _ => []

/-- Single-bit left shift with carry chained across limbs (`mul2`). -/
def mul2 : List Nat → Nat → List Nat
  | x :: xs, c => (2 * x + c) % W :: mul2 xs ((2 * x + c) / W)
  | [], _ => []

/-- Single-bit right shift: each limb keeps its high 63 bits of the shifted
value and receives the low bit of the next limb (`div2`). -/
def div2 : List Nat → List Nat
  | x :: y :: xs => (x / 2 + y % 2 * 2 ^ 63) :: div2 (y :: xs)
  | [x] => [x / 2]
  | [] => []

/-- Parity test on the lowest limb (`is_even`). -/
def is_even (xs : List Nat) : Bool :=
  match xs with
  | x :: _ => x % 2 == 0
  | [] => true

/-- All-limbs-zero test (`is_zero` / `const_is_zero`). -/
def is_zero (xs : List Nat) : Bool := xs.all (· == 0)

/-- Lexicographic strict comparison, most-significant limb first; the
argument lists are most-significant first (callers pass reversed limbs).
This is the loop of `const_is_valid` and the derived `Ord` instance. -/
def ltMSB : List Nat → List Nat → Bool
  | x :: xs, y :: ys => if x < y then true else if y < x then false else ltMSB xs ys
  | _, _ => false

/-- Strict `<` on limb lists (`BigInteger`'s `Ord`, also `const_is_valid`). -/
def ltBig (a b : List Nat) : Bool := ltMSB a.reverse b.reverse

/-- Limbs of a natural number (`BigInteger::from`, zero-extended to `l` limbs). -/
def natToLimbs : Nat → Nat → List Nat
  | 0, _ => []
  | l + 1, n => n % W :: natToLimbs l (n / W)

/-!
The Montgomery multiply-and-reduce engine (`mul_without_reduce`, `const_mul`,
`const_reduce`, `const_is_valid` of `src/ff/src/fields/macros.rs`).

The 2L-limb accumulator `r` is a list; a row at offset `i` only touches
positions `i` and above, and positions below the current offset are never
read again (the final copy keeps `r[L..2L]`), so each loop is embedded by
processing the suffix of the accumulator and peeling one limb per row.
-/

/-- One row of the schoolbook product: `for j in 0..L { r[j+i] =
mac_with_carry!(r[j+i], a_i, b_j, carry) }; r[L+i] = carry` acting on the
suffix of the accumulator starting at offset `i`. -/
def macRow (x : Nat) : List Nat → List Nat → Nat → List Nat
  | b :: bs, r :: rs, carry =>
    (r + x * b + carry) % W :: macRow x bs rs ((r + x * b + carry) / W)
  | [], _ :: rs, carry => carry :: rs
  | _, [], _ => []

/-- The multiplication phase of `mul_without_reduce`: one `macRow` per limb of
`self`, at increasing offsets (peeling one settled limb per row). -/
def mulLoop (bs : List Nat) : List Nat → List Nat → List Nat
  | [], r => r
  | a :: as', r =>
    match macRow a bs r 0 with
    | [] => []
    | r0 :: rrest => r0 :: mulLoop bs as' rrest

/-- The tail of one Montgomery-reduction row: `for j in 1..L { r[j+i] =
mac_with_carry!(r[j+i], k, modulus.0[j], carry) }; r[L+i] = adc!(r[L+i],
_carry2, carry); _carry2 = carry`. -/
def macChainAdc (k : Nat) : List Nat → List Nat → Nat → Nat → List Nat × Nat
  | m :: ms', x :: xs', carry, c2 =>
    let p := macChainAdc k ms' xs' ((x + k * m + carry) / W) c2
    ((x + k * m + carry) % W :: p.1, p.2)
  | [], x :: xs', carry, c2 => ((x + c2 + carry) % W :: xs', (x + c2 + carry) / W)
  | _, [], carry, _ => ([], carry)

/-- One Montgomery-reduction row: `k = r[i].wrapping_mul(inv)`, a first
`mac_with_carry!` whose low word is discarded, then `macChainAdc`.  The
low limb of the suffix is kept in place (the source never reads it again). -/
def redRow (inv : Nat) (ms s : List Nat) (c2 : Nat) : List Nat × Nat :=
  match s, ms with
  | s0 :: srest, m0 :: mrest =>
    let k := s0 * inv % W
    let p := macChainAdc k mrest srest ((s0 + s0 * inv % W * m0) / W) c2
    (s0 :: p.1, p.2)
  | _, _ => (s, c2)

/-- The reduction phase: `L` rows; after each row the settled low limb is
dropped (the source instead copies `r[L..2L]` out at the end, which is the
same thing), and the final `_carry2` is dropped as in the source. -/
def redLoop (inv : Nat) (ms : List Nat) : Nat → List Nat → Nat → List Nat
  | 0, s, _ => s
  | n + 1, s, c2 =>
    let p := redRow inv ms s c2
    redLoop inv ms n p.1.tail p.2

/-- `mul_without_reduce`: schoolbook product into a `2L`-limb accumulator,
then `L` Montgomery-reduction rows; the high `L` limbs are the result. -/
def mul_without_reduce (inv : Nat) (ms a b : List Nat) : List Nat :=
  redLoop inv ms ms.length (mulLoop b a (List.replicate (2 * ms.length) 0)) 0

/-- `const_is_valid`: lexicographic from the most-significant limb,
`true` iff the value is strictly below the modulus.  The run-time
`is_valid` (`self.0 < P::MODULUS`) is the same comparison. -/
def const_is_valid (a ms : List Nat) : Bool := ltBig a ms

/-- `const_reduce`: one conditional subtraction of the modulus. -/
def const_reduce (ms a : List Nat) : List Nat :=
  if const_is_valid a ms then a else sub_noborrow a ms 0

/-- `const_mul`: multiply-and-reduce followed by the conditional subtraction.
The run-time `MulAssign` (`impl_field_mul_assign!`) drives the same engine
(spec, section 4.2). -/
def const_mul (inv : Nat) (ms a b : List Nat) : List Nat :=
  const_reduce ms (mul_without_reduce inv ms a b)

/-!
The field-element layer: `$Fp<P>` wraps one `BigInteger`; the parameter
bundle `P` supplies `MODULUS`, `R`, `R2`, `INV`, `MODULUS_BITS`,
`REPR_SHAVE_BITS` (the constants used by the code under `src/`; the unused
generator/root-of-unity constants are omitted).
-/

structure FpParams where
  nlimbs : Nat
  MODULUS : List Nat
  R : List Nat
  R2 : List Nat
  INV : Nat
  MODULUS_BITS : Nat
  REPR_SHAVE_BITS : Nat

/-- The modulus value. -/
def M (P : FpParams) : Nat := bigVal P.MODULUS

/-- The parameter contract (spec, sections 3 and 6): `L` limbs sized to the
modulus, `M` an odd value above 1 with at least one spare bit in the top
limb (`REPR_SHAVE_BITS = 64 L − MODULUS_BITS ≥ 1`), `R = 2^(64L) mod M`,
`R2 = R² mod M`, `INV = −M⁻¹ mod 2^64`. -/
def wellFormed (P : FpParams) : Prop :=
  0 < P.nlimbs ∧
  P.MODULUS.length = P.nlimbs ∧ wfLimbs P.MODULUS ∧
  P.R.length = P.nlimbs ∧ wfLimbs P.R ∧
  P.R2.length = P.nlimbs ∧ wfLimbs P.R2 ∧
  M P % 2 = 1 ∧ 1 < M P ∧
  2 * M P < W ^ P.nlimbs ∧
  bigVal P.R = W ^ P.nlimbs % M P ∧
  bigVal P.R2 = W ^ P.nlimbs * W ^ P.nlimbs % M P ∧
  P.INV < W ∧ (1 + P.INV * (M P % W)) % W = 0 ∧
  0 < P.MODULUS_BITS ∧
  2 ^ (P.MODULUS_BITS - 1) ≤ M P ∧ M P < 2 ^ P.MODULUS_BITS ∧
  64 * (P.nlimbs - 1) < P.MODULUS_BITS ∧
  P.REPR_SHAVE_BITS = 64 * P.nlimbs - P.MODULUS_BITS

@[ext]
structure Fp where
  limbs : List Nat
deriving DecidableEq

/-- The representation invariant of a field element: correctly shaped limbs
whose stored value is strictly below the modulus. -/
def good (P : FpParams) (a : Fp) : Prop :=
  a.limbs.length = P.nlimbs ∧ wfLimbs a.limbs ∧ bigVal a.limbs < M P

/-- `Zero::zero()`. -/
def zeroFp (P : FpParams) : Fp := ⟨natToLimbs P.nlimbs 0⟩

/-- `One::one()`. -/
def oneFp (P : FpParams) : Fp := ⟨P.R⟩

/-- `Zero::is_zero` / `const_is_zero`. -/
def fp_is_zero (a : Fp) : Bool := is_zero a.limbs

/-- `is_valid`: `self.0 < P::MODULUS`. -/
def fp_is_valid (P : FpParams) (a : Fp) : Bool := ltBig a.limbs P.MODULUS

/-- `reduce`: conditional subtraction restoring the invariant. -/
def fp_reduce (P : FpParams) (a : Fp) : Fp :=
  if fp_is_valid P a then a else ⟨sub_noborrow a.limbs P.MODULUS 0⟩

/-- `AddAssign::add_assign`: limb add (cannot exceed the backing capacity),
then `reduce`. -/
def add_assign (P : FpParams) (a b : Fp) : Fp :=
  fp_reduce P ⟨add_nocarry a.limbs b.limbs 0⟩

/-- `SubAssign::sub_assign`: if `other > self`, add the modulus first. -/
def sub_assign (P : FpParams) (a b : Fp) : Fp :=
  if ltBig a.limbs b.limbs then
    ⟨sub_noborrow (add_nocarry a.limbs P.MODULUS 0) b.limbs 0⟩
  else ⟨sub_noborrow a.limbs b.limbs 0⟩

/-- `Neg::neg`: zero stays zero, otherwise `MODULUS - self`. -/
def neg (P : FpParams) (a : Fp) : Fp :=
  if fp_is_zero a then a else ⟨sub_noborrow P.MODULUS a.limbs 0⟩

/-- `double_in_place`: single-bit shift, then `reduce`. -/
def double_in_place (P : FpParams) (a : Fp) : Fp :=
  fp_reduce P ⟨mul2 a.limbs 0⟩

/-- `MulAssign::mul_assign` (`impl_field_mul_assign!` is not part of `src/`;
spec, section 4.2: multiplication drives the Montgomery engine, which is the
`const_mul`/`mul_without_reduce` code of `src/`). -/
def mul_assign (P : FpParams) (a b : Fp) : Fp :=
  ⟨const_mul P.INV P.MODULUS a.limbs b.limbs⟩

/-- `square_in_place` (`impl_field_square_in_place!` is not part of `src/`).
Modelled from the spec, section 4.2: squaring is "a specialized faster path
computing the same result" as the Montgomery multiplication of the element
by itself. -/
def square_in_place (P : FpParams) (a : Fp) : Fp := mul_assign P a a

/-- `PrimeField::from_repr`: zero passes through, a valid integer enters
Montgomery form through multiplication by `R2`, anything else is rejected. -/
def from_repr (P : FpParams) (r : List Nat) : Option Fp :=
  if is_zero r then some ⟨r⟩
  else if ltBig r P.MODULUS then some (mul_assign P ⟨r⟩ ⟨P.R2⟩)
  else none

/-- `into_repr` (`impl_field_into_repr!` is not part of `src/`). Modelled
from the spec, section 4.3: the inverse conversion recovers the logical
integer "via the same reduction machinery against an implicit unit
operand". -/
def into_repr (P : FpParams) (a : Fp) : List Nat :=
  const_mul P.INV P.MODULUS a.limbs (natToLimbs P.nlimbs 1)

/-!
Byte-level serialization.  `ToBytes`/`FromBytes` write/read the limbs of the
logical integer in little-endian order (the `BigInteger` byte codec is not
part of `src/`; modelled from the spec, section 6: "fixed-size little-endian
encoding of the canonical logical value").
-/

/-- Little-endian bytes of a natural number, `k` bytes. -/
def natToBytes : Nat → Nat → List Nat
  | 0, _ => []
  | k + 1, n => n % 256 :: natToBytes k (n / 256)

/-- Value of a little-endian byte list. -/
def bytesVal : List Nat → Nat
  | [] => 0
  | b :: bs => b + 256 * bytesVal bs

/-- Bytes of u8 values. -/
def wfBytes (bs : List Nat) : Prop := ∀ b ∈ bs, b < 256

/-- `ToBytes` for a `BigInteger`: each limb written as 8 little-endian
bytes. -/
def limbsToBytes : List Nat → List Nat
  | [] => []
  | x :: xs => natToBytes 8 x ++ limbsToBytes xs

/-- `FromBytes` for a `BigInteger`: read `l` limbs of 8 little-endian bytes
each. -/
def bytesToLimbs : Nat → List Nat → List Nat
  | 0, _ => []
  | l + 1, bs => bytesVal (bs.take 8) :: bytesToLimbs l (bs.drop 8)

/-- `ToBytes::write`: write `into_repr` limb by limb, little-endian. -/
def fpWrite (P : FpParams) (a : Fp) : List Nat := limbsToBytes (into_repr P a)

/-- `FromBytes::read`: read a `BigInteger` (8 bytes per limb; fails on a
short input, as `read_exact` does), then `from_repr`, rejecting invalid
values. -/
def fpRead (P : FpParams) (bytes : List Nat) : Except Unit Fp :=
  if bytes.length < 8 * P.nlimbs then .error ()
  else
    match from_repr P (bytesToLimbs P.nlimbs bytes) with
    | some f => .ok f
    | none => .error ()

/-- Modelled from the spec, section 4.6: the canonical output is
`ceil(bits(M)/8)` bytes (`ark_serialize::buffer_bit_byte_size`; the bit size
is 8 times the byte size). -/
def buffer_byte_size (bits : Nat) : Nat := (bits + 7) / 8

/-- `serialize_with_flags`: check the flag width against the spare bits
(before anything is written), write the element, `OR` the flag bitmask into
the most-significant used byte, emit the canonical byte count.  A flag set
of bit width `flagLen` with value `flagVal < 2^flagLen` has `u8_bitmask() =
flagVal <<< (8 - flagLen)` (modelled from the spec, section 6: flags occupy
the high bits of the final byte). -/
def serialize_with_flags (P : FpParams) (a : Fp) (flagLen flagVal : Nat) :
    Except Unit (List Nat) :=
  let output_byte_size := buffer_byte_size P.MODULUS_BITS
  let output_bit_size := 8 * output_byte_size
  if output_bit_size - P.MODULUS_BITS < flagLen then .error ()
  else
    let bytes := fpWrite P a
    let bytes2 := bytes.set (output_byte_size - 1)
      (bytes.getD (output_byte_size - 1) 0 ||| 2 ^ (8 - flagLen) * flagVal)
    .ok (bytes2.take output_byte_size)

/-- `deserialize_with_flags`: same width check, read exactly the canonical
byte count, strip the flag bits from the top byte
(`from_u8_remove_flags`, modelled: value `b` splits into flags `b >> (8 -
flagLen)` and remainder `b mod 2^(8-flagLen)`), then `FromBytes::read` over
the zero-padded limb buffer. -/
def deserialize_with_flags (P : FpParams) (input : List Nat) (flagLen : Nat) :
    Except Unit (Fp × Nat) :=
  let output_byte_size := buffer_byte_size P.MODULUS_BITS
  if 8 * output_byte_size - P.MODULUS_BITS < flagLen then .error ()
  else if input.length < output_byte_size then .error ()
  else
    let masked := input.take output_byte_size
      ++ List.replicate (8 * P.nlimbs - output_byte_size) 0
    let last := masked.getD (output_byte_size - 1) 0
    let flags := last / 2 ^ (8 - flagLen)
    let masked2 := masked.set (output_byte_size - 1) (last % 2 ^ (8 - flagLen))
    match fpRead P masked2 with
    | .ok f => .ok (f, flags)
    | .error _ => .error ()

/-- `CanonicalDeserialize::deserialize`: read the canonical byte count into a
zero-padded limb buffer (no flag stripping), then `FromBytes::read`. -/
def fpDeserialize (P : FpParams) (input : List Nat) : Except Unit Fp :=
  let output_byte_size := buffer_byte_size P.MODULUS_BITS
  if input.length < output_byte_size then .error ()
  else fpRead P (input.take output_byte_size
    ++ List.replicate (8 * P.nlimbs - output_byte_size) 0)

/-!
Inversion: the binary extended Euclidean algorithm of `Field::inverse`
(Guajardo–Kumar–Paar–Pelzl, Algorithm 16).  The two inner `while is_even`
loops and the outer `while` loop are embedded with explicit iteration
bounds; running out of a bound yields the `none`/even-result cases, which
the theorems below prove unreachable under the source's preconditions
(`64 L` exceeds the number of halvings of a nonzero `L`-limb value, and the
outer bound exceeds the iteration count established for C9).
-/

/-- One halving of the accumulator `b` (or `c`): halve if even, else add the
modulus first (keeping the scaling consistent, spec section 4.4). -/
def halveB (P : FpParams) (e : Fp) : Fp :=
  if is_even e.limbs then ⟨div2 e.limbs⟩
  else ⟨div2 (add_nocarry e.limbs P.MODULUS 0)⟩

/-- The inner `while u.is_even()` loop: halve `u` (and adjust `b`) while
even, at most `fuel` times. -/
def halveLoopF (P : FpParams) : Nat → List Nat → Fp → List Nat × Fp
  | 0, x, e => (x, e)
  | f + 1, x, e =>
    if is_even x then halveLoopF P f (div2 x) (halveB P e) else (x, e)

/-- `BigInteger::from(1)`, the loop's sentinel value. -/
def oneLimbs (P : FpParams) : List Nat := natToLimbs P.nlimbs 1

/-- The outer `while u != one && v != one` loop; one unit of fuel per
evaluation of the loop condition.  On exit, `b` is returned if `u == one`,
else `c`. -/
def beaLoop (P : FpParams) : Nat → List Nat → List Nat → Fp → Fp → Option Fp
  | 0, _, _, _, _ => none
  | fuel + 1, u, v, b, c =>
    if u = oneLimbs P ∨ v = oneLimbs P then
      if u = oneLimbs P then some b else some c
    else
      let p := halveLoopF P (64 * P.nlimbs) u b
      let q := halveLoopF P (64 * P.nlimbs) v c
      if ltBig q.1 p.1 then
        beaLoop P fuel (sub_noborrow p.1 q.1 0) q.1 (sub_assign P p.2 q.2) q.2
      else
        beaLoop P fuel p.1 (sub_noborrow q.1 p.1 0) p.2 (sub_assign P q.2 p.2)

/-- `Field::inverse`: `None` on zero, else the loop starting from
`u = self`, `v = MODULUS`, `b = R2` (avoiding a reduction step), `c = 0`. -/
def inverse (P : FpParams) (a : Fp) : Option Fp :=
  if fp_is_zero a then none
  else beaLoop P (bigVal a.limbs + M P + 1) a.limbs P.MODULUS ⟨P.R2⟩ (zeroFp P)

/-- The odd part of a natural number. -/
def oddPart (n : Nat) : Nat := n / 2 ^ (n.factorization 2)

/-- `char::to_digit(10)`: the numeric value of a decimal digit. -/
def to_digit (ch : Char) : Option Nat :=
  if '0' ≤ ch ∧ ch ≤ '9' then some (ch.toNat - Char.toNat '0') else none

/-- `From<u64>` and the other small-integer constructors
(`impl_prime_field_from_int!` is not part of `src/`).  Modelled from the
spec, section 4.7: zero-extend the integer to field width and enter
Montgomery form; the spec calls such inputs "always representable", so the
code's rejected branch (a panic) is modelled by the zero fallback. -/
def ofNatFp (P : FpParams) (n : Nat) : Fp :=
  (from_repr P (natToLimbs P.nlimbs (n % W))).getD (zeroFp P)

/-- The digit loop of `FromStr::from_str`: reject a non-digit, reject a zero
first digit, accumulate `res = res·10 + digit` in field arithmetic; after
the loop, the code's final `is_valid` check. -/
def from_str_go (P : FpParams) : List Char → Fp → Bool → Except Unit Fp
  | [], res, _ => if fp_is_valid P res then Except.ok res else Except.error ()
  | ch :: rest, res, first =>
    match to_digit ch with
    | some d =>
      if first = true ∧ d = 0 then Except.error ()
      else from_str_go P rest
        (add_assign P (mul_assign P res (ofNatFp P 10)) (ofNatFp P d)) false
    | none => Except.error ()

/-- `FromStr::from_str` over the characters of the input string: the empty
string fails, the single digit `0` is zero, anything else runs the digit
loop from zero. -/
def from_str (P : FpParams) (s : List Char) : Except Unit Fp :=
  if s = [] then Except.error ()
  else if s = ['0'] then Except.ok (zeroFp P)
  else from_str_go P s (zeroFp P) true

/-- The zeroed full-limb buffer with the input bytes copied in
(`result_bytes` before the masking loop). -/
def frbwf_result_bytes (P : FpParams) (bytes : List Nat) : List Nat :=
  (bytes ++ List.replicate (8 * P.nlimbs) 0).take (8 * P.nlimbs)

/-- The buffer after the masking loop: the top 8 bytes are `AND`-ed with the
little-endian bytes of `mask = 0xffffffffffffffff >> REPR_SHAVE_BITS`. -/
def frbwf_masked (P : FpParams) (bytes : List Nat) : List Nat :=
  (frbwf_result_bytes P bytes).take (8 * (P.nlimbs - 1))
    ++ List.zipWith (fun b m => b &&& m)
        ((frbwf_result_bytes P bytes).drop (8 * (P.nlimbs - 1)))
        (natToBytes 8 ((2 ^ 64 - 1) >>> P.REPR_SHAVE_BITS))

/-- The extracted flag byte: the pre-mask byte at `flags_byte_position
= 7 - REPR_SHAVE_BITS / 8` of the top 8 bytes, `AND`-ed with `flags_mask =
((1 << REPR_SHAVE_BITS % 8) - 1) << (8 - REPR_SHAVE_BITS % 8)`. -/
def frbwf_flagByte (P : FpParams) (bytes : List Nat) : Nat :=
  ((frbwf_result_bytes P bytes).drop (8 * (P.nlimbs - 1))).getD
      (7 - P.REPR_SHAVE_BITS / 8) 0
    &&& (((1 <<< (P.REPR_SHAVE_BITS % 8)) - 1) <<< (8 - P.REPR_SHAVE_BITS % 8))

/-- `from_random_bytes_with_flags`, with the panic possibilities made
explicit in an outer `Option` layer: the outer `none` marks an arithmetic
panic in the mask computations (the `u64` shift `0xffffffffffffffff >>
REPR_SHAVE_BITS` when `REPR_SHAVE_BITS ≥ 64`, or the `u8` shift
`((1 << REPR_SHAVE_BITS % 8) - 1) << (8 - REPR_SHAVE_BITS % 8)` by a full
8 bits when `REPR_SHAVE_BITS` is a multiple of 8).  Otherwise the code
copies the input into a zeroed full-limb buffer, reads the flag byte out of
the top 8 bytes, masks those bytes, and feeds the buffer to
`CanonicalDeserialize::deserialize`. -/
def from_random_bytes_with_flags (P : FpParams) (bytes : List Nat) :
    Option (Option (Fp × Nat)) :=
  if 64 ≤ P.REPR_SHAVE_BITS then none
  else if P.REPR_SHAVE_BITS % 8 = 0 then none
  else
    match fpDeserialize P (frbwf_masked P bytes) with
    | Except.ok f => some (some (f, frbwf_flagByte P bytes))
    | Except.error _ => some none

/-- A one-limb instantiation with the prime modulus 17, the concrete
parameter set of the witnesses: `R = 2^64 mod 17 = 1`, `R² mod 17 = 1`,
`INV = -17⁻¹ mod 2^64`, 5 modulus bits, 59 shaved bits. -/
def P17 : FpParams :=
  ⟨1, [17], [1], [1], 1085102592571150095, 5, 59⟩

/-- A one-limb instantiation with the prime modulus 251:
`REPR_SHAVE_BITS = 56` is a multiple of 8, the panicking case of
`from_random_bytes_with_flags`. -/
def P251 : FpParams :=
  ⟨1, [251], [69], [243], 15507023902600459725, 8, 56⟩

instance (xs : List Nat) : Decidable (wfLimbs xs) := by
  unfold wfLimbs
  infer_instance

instance (bs : List Nat) : Decidable (wfBytes bs) := by
  unfold wfBytes
  infer_instance

instance (P : FpParams) : Decidable (wellFormed P) := by
  unfold wellFormed
  infer_instance

instance (P : FpParams) (a : Fp) : Decidable (good P a) := by
  unfold good
  infer_instance

theorem W_pos : 0 < W := by decide

theorem W_lit : W = 18446744073709551616 := by decide

theorem bigVal_nil : bigVal [] = 0 := rfl

theorem bigVal_cons (x : Nat) (xs : List Nat) :
    bigVal (x :: xs) = x + W * bigVal xs := rfl

theorem wfLimbs_nil : wfLimbs [] := by intro x hx; cases hx

theorem wfLimbs_cons {x : Nat} {xs : List Nat} (hx : x < W) (hxs : wfLimbs xs) :
    wfLimbs (x :: xs) := by
  intro y hy
  rcases List.mem_cons.mp hy with h | h
  · exact h ▸ hx
  · exact hxs y h

theorem wfLimbs_of_cons {x : Nat} {xs : List Nat} (h : wfLimbs (x :: xs)) :
    x < W ∧ wfLimbs xs :=
  ⟨h x (List.mem_cons_self x xs), fun y hy => h y (List.mem_cons_of_mem x hy)⟩

theorem wfLimbs_append {xs ys : List Nat} (hx : wfLimbs xs) (hy : wfLimbs ys) :
    wfLimbs (xs ++ ys) := by
  intro z hz
  rcases List.mem_append.mp hz with h | h
  · exact hx z h
  · exact hy z h

theorem bigVal_append (xs ys : List Nat) :
    bigVal (xs ++ ys) = bigVal xs + W ^ xs.length * bigVal ys := by
  induction xs with
  | nil => simp [bigVal]
  | cons x xs ih =>
    simp only [List.cons_append, bigVal_cons, ih, List.length_cons, pow_succ]
    ring

theorem bigVal_lt {xs : List Nat} (h : wfLimbs xs) : bigVal xs < W ^ xs.length := by
  induction xs with
  | nil => simp [bigVal]
  | cons x xs ih =>
    obtain ⟨hx, hxs⟩ := wfLimbs_of_cons h
    have hv := ih hxs
    simp only [bigVal_cons, List.length_cons]
    calc x + W * bigVal xs < W + W * bigVal xs := by omega
    _ = W * (1 + bigVal xs) := by ring
    _ ≤ W * W ^ xs.length := Nat.mul_le_mul_left W (by omega)
    _ = W ^ (xs.length + 1) := by rw [pow_succ, Nat.mul_comm]

theorem bigVal_replicate_zero (n : Nat) : bigVal (List.replicate n 0) = 0 := by
  induction n with
  | zero => rfl
  | succ n ih => simp [List.replicate_succ, bigVal_cons, ih]

theorem wfLimbs_replicate_zero (n : Nat) : wfLimbs (List.replicate n 0) := by
  intro x hx
  have := List.eq_of_mem_replicate hx
  subst this; exact W_pos

theorem limb_split {x y a b : Nat} (hx : x < W) (hy : y < W)
    (h : x + W * a = y + W * b) : x = y ∧ a = b := by
  rw [W_lit] at hx hy h
  omega

/-- Limb lists of equal length with equal values are equal. -/
theorem bigVal_inj {xs ys : List Nat} (hx : wfLimbs xs) (hy : wfLimbs ys)
    (hlen : xs.length = ys.length) (hval : bigVal xs = bigVal ys) : xs = ys := by
  induction xs generalizing ys with
  | nil =>
    cases ys with
    | nil => rfl
    | cons y ys => simp at hlen
  | cons x xs ih =>
    cases ys with
    | nil => simp at hlen
    | cons y ys =>
      obtain ⟨hx1, hx2⟩ := wfLimbs_of_cons hx
      obtain ⟨hy1, hy2⟩ := wfLimbs_of_cons hy
      simp only [bigVal_cons] at hval
      obtain ⟨h1, h2⟩ := limb_split hx1 hy1 hval
      simp only [List.length_cons] at hlen
      rw [h1, ih hx2 hy2 (by omega) h2]

theorem add_nocarry_length : ∀ (xs ys : List Nat) (c : Nat),
    (add_nocarry xs ys c).length = min xs.length ys.length
  | [], [], _ => rfl
  | [], _ :: _, _ => rfl
  | _ :: _, [], _ => rfl
  | x :: xs, y :: ys, c => by
    simp [add_nocarry, add_nocarry_length xs ys, Nat.succ_min_succ]

theorem add_nocarry_wf : ∀ (xs ys : List Nat) (c : Nat), wfLimbs (add_nocarry xs ys c)
  | [], [], _ => wfLimbs_nil
  | [], _ :: _, _ => wfLimbs_nil
  | _ :: _, [], _ => wfLimbs_nil
  | x :: xs, y :: ys, c =>
    wfLimbs_cons (Nat.mod_lt _ W_pos) (add_nocarry_wf xs ys _)

/-- Value of `add_nocarry` when the mathematical sum does not overflow the
backing capacity (the caller-guaranteed precondition). -/
theorem add_nocarry_val : ∀ (xs ys : List Nat) (c : Nat),
    wfLimbs xs → wfLimbs ys → xs.length = ys.length → c ≤ 1 →
    bigVal xs + bigVal ys + c < W ^ xs.length →
    bigVal (add_nocarry xs ys c) = bigVal xs + bigVal ys + c
  | [], [], c, _, _, _, hc, hno => by
    simp only [List.length_nil, pow_zero, bigVal_nil] at hno
    simp only [show add_nocarry [] [] c = [] from rfl, bigVal_nil]
    omega
  | [], y :: ys, _, _, _, hlen, _, _ => by simp at hlen
  | x :: xs, [], _, _, _, hlen, _, _ => by simp at hlen
  | x :: xs, y :: ys, c, hx, hy, hlen, hc, hno => by
    obtain ⟨hx1, hx2⟩ := wfLimbs_of_cons hx
    obtain ⟨hy1, hy2⟩ := wfLimbs_of_cons hy
    simp only [List.length_cons] at hlen
    simp only [bigVal_cons, List.length_cons, pow_succ] at hno
    simp only [add_nocarry, bigVal_cons]
    have hdiv := Nat.div_add_mod (x + y + c) W
    have hmod : (x + y + c) % W < W := Nat.mod_lt _ W_pos
    have hq : (x + y + c) / W ≤ 1 := by rw [W_lit] at hx1 hy1 ⊢; omega
    have hpre : bigVal xs + bigVal ys + (x + y + c) / W < W ^ xs.length := by
      rw [W_lit] at hdiv hmod hno ⊢; omega
    rw [add_nocarry_val xs ys _ hx2 hy2 (by omega) hq hpre]
    rw [W_lit] at hdiv ⊢; omega

theorem sub_noborrow_length : ∀ (xs ys : List Nat) (br : Nat),
    (sub_noborrow xs ys br).length = min xs.length ys.length
  | [], [], _ => rfl
  | [], _ :: _, _ => rfl
  | _ :: _, [], _ => rfl
  | x :: xs, y :: ys, br => by
    simp [sub_noborrow, sub_noborrow_length xs ys, Nat.succ_min_succ]

theorem sub_noborrow_wf : ∀ (xs ys : List Nat) (br : Nat), wfLimbs (sub_noborrow xs ys br)
  | [], [], _ => wfLimbs_nil
  | [], _ :: _, _ => wfLimbs_nil
  | _ :: _, [], _ => wfLimbs_nil
  | x :: xs, y :: ys, br =>
    wfLimbs_cons (Nat.mod_lt _ W_pos) (sub_noborrow_wf xs ys _)

/-- Value of `sub_noborrow` when the subtraction does not underflow (the
caller-guaranteed precondition). -/
theorem sub_noborrow_val : ∀ (xs ys : List Nat) (br : Nat),
    wfLimbs xs → wfLimbs ys → xs.length = ys.length → br ≤ 1 →
    bigVal ys + br ≤ bigVal xs →
    bigVal (sub_noborrow xs ys br) + bigVal ys + br = bigVal xs
  | [], [], br, _, _, _, _, hle => by
    simp only [bigVal_nil] at hle
    simp only [show sub_noborrow [] [] br = [] from rfl, bigVal_nil]
    omega
  | [], y :: ys, _, _, _, hlen, _, _ => by simp at hlen
  | x :: xs, [], _, _, _, hlen, _, _ => by simp at hlen
  | x :: xs, y :: ys, br, hx, hy, hlen, hbr, hle => by
    obtain ⟨hx1, hx2⟩ := wfLimbs_of_cons hx
    obtain ⟨hy1, hy2⟩ := wfLimbs_of_cons hy
    simp only [List.length_cons] at hlen
    simp only [bigVal_cons] at hle ⊢
    simp only [sub_noborrow]
    by_cases hcase : W + x - y - br < W
    · simp only [if_pos hcase, bigVal_cons]
      have hpre : bigVal ys + 1 ≤ bigVal xs := by
        by_contra hcon
        push_neg at hcon
        have hmul : W * bigVal xs ≤ W * bigVal ys := Nat.mul_le_mul_left W (by omega)
        rw [W_lit] at hmul hle hcase hx1 hy1
        omega
      have hrec := sub_noborrow_val xs ys 1 hx2 hy2 (by omega) (by omega) hpre
      rw [W_lit] at hx1 hy1 hcase ⊢
      omega
    · simp only [if_neg hcase, bigVal_cons]
      have hpre : bigVal ys + 0 ≤ bigVal xs := by
        by_contra hcon
        push_neg at hcon
        have hmul : W * (bigVal xs + 1) ≤ W * bigVal ys := Nat.mul_le_mul_left W (by omega)
        rw [W_lit] at hmul hle hcase hx1 hy1
        omega
      have hrec := sub_noborrow_val xs ys 0 hx2 hy2 (by omega) (by omega) hpre
      rw [W_lit] at hx1 hy1 hcase ⊢
      omega

theorem mul2_length : ∀ (xs : List Nat) (c : Nat), (mul2 xs c).length = xs.length
  | [], _ => rfl
  | x :: xs, c => by simp [mul2, mul2_length xs]

theorem mul2_wf : ∀ (xs : List Nat) (c : Nat), wfLimbs (mul2 xs c)
  | [], _ => wfLimbs_nil
  | x :: xs, c => wfLimbs_cons (Nat.mod_lt _ W_pos) (mul2_wf xs _)

/-- Value of `mul2` when the doubled value does not overflow. -/
theorem mul2_val : ∀ (xs : List Nat) (c : Nat),
    wfLimbs xs → c ≤ 1 → 2 * bigVal xs + c < W ^ xs.length →
    bigVal (mul2 xs c) = 2 * bigVal xs + c
  | [], c, _, hc, hno => by
    simp only [List.length_nil, pow_zero, bigVal_nil] at hno
    simp only [show mul2 [] c = [] from rfl, bigVal_nil]
    omega
  | x :: xs, c, hx, hc, hno => by
    obtain ⟨hx1, hx2⟩ := wfLimbs_of_cons hx
    simp only [List.length_cons] at hno
    rw [pow_succ] at hno
    simp only [mul2, bigVal_cons] at hno ⊢
    have hdiv := Nat.div_add_mod (2 * x + c) W
    have hq : (2 * x + c) / W ≤ 1 := by rw [W_lit] at hx1 ⊢; omega
    have hpre : 2 * bigVal xs + (2 * x + c) / W < W ^ xs.length := by
      rw [W_lit] at hdiv hno ⊢; omega
    rw [mul2_val xs _ hx2 hq hpre]
    rw [W_lit] at hdiv ⊢; omega

theorem div2_length : ∀ (xs : List Nat), (div2 xs).length = xs.length
  | [] => rfl
  | [x] => rfl
  | x :: y :: xs => by simp [div2, div2_length (y :: xs)]

theorem div2_wf : ∀ (xs : List Nat), wfLimbs xs → wfLimbs (div2 xs)
  | [], _ => wfLimbs_nil
  | [x], h => by
    obtain ⟨hx1, _⟩ := wfLimbs_of_cons h
    exact wfLimbs_cons (by rw [W_lit] at hx1 ⊢; omega) wfLimbs_nil
  | x :: y :: xs, h => by
    obtain ⟨hx1, h2⟩ := wfLimbs_of_cons h
    obtain ⟨hy1, _⟩ := wfLimbs_of_cons h2
    exact wfLimbs_cons (by rw [W_lit] at hx1 hy1 ⊢; omega) (div2_wf (y :: xs) h2)

theorem div2_val : ∀ (xs : List Nat), bigVal (div2 xs) = bigVal xs / 2
  | [] => rfl
  | [x] => by simp [div2, bigVal_cons, bigVal_nil]
  | x :: y :: xs => by
    have ih := div2_val (y :: xs)
    simp only [div2, bigVal_cons] at ih ⊢
    rw [ih]
    rw [W_lit]; omega

theorem is_even_iff (x : Nat) (xs : List Nat) :
    is_even (x :: xs) = true ↔ bigVal (x :: xs) % 2 = 0 := by
  simp only [is_even, bigVal_cons, beq_iff_eq]
  rw [W_lit]; omega

theorem is_zero_iff : ∀ (xs : List Nat), (is_zero xs = true ↔ bigVal xs = 0)
  | [] => by simp [is_zero, bigVal_nil]
  | x :: xs => by
    have ih := is_zero_iff xs
    simp only [is_zero] at ih ⊢
    rw [List.all_cons]
    simp only [Bool.and_eq_true, beq_iff_eq, bigVal_cons]
    rw [W_lit]
    constructor
    · rintro ⟨h1, h2⟩
      have := ih.mp h2
      omega
    · intro h
      have hx : x = 0 := by omega
      have hv : bigVal xs = 0 := by omega
      exact ⟨hx, ih.mpr hv⟩

theorem bigVal_reverse_cons (x : Nat) (xs : List Nat) :
    bigVal ((x :: xs).reverse) = bigVal xs.reverse + W ^ xs.length * x := by
  rw [List.reverse_cons, bigVal_append]
  simp [bigVal_cons, bigVal_nil, List.length_reverse]

theorem ltMSB_iff : ∀ (u v : List Nat), wfLimbs u → wfLimbs v → u.length = v.length →
    (ltMSB u v = true ↔ bigVal u.reverse < bigVal v.reverse)
  | [], [], _, _, _ => by simp [ltMSB, bigVal_nil]
  | [], y :: ys, _, _, hlen => by simp at hlen
  | x :: xs, [], _, _, hlen => by simp at hlen
  | x :: xs, y :: ys, hx, hy, hlen => by
    obtain ⟨hx1, hx2⟩ := wfLimbs_of_cons hx
    obtain ⟨hy1, hy2⟩ := wfLimbs_of_cons hy
    simp only [List.length_cons] at hlen
    have hlen' : xs.length = ys.length := by omega
    have hXs : bigVal xs.reverse < W ^ xs.length := by
      have hwr : wfLimbs xs.reverse := by
        intro z hz; exact hx2 z (List.mem_reverse.mp hz)
      have := bigVal_lt hwr
      rwa [List.length_reverse] at this
    have hYs : bigVal ys.reverse < W ^ ys.length := by
      have hwr : wfLimbs ys.reverse := by
        intro z hz; exact hy2 z (List.mem_reverse.mp hz)
      have := bigVal_lt hwr
      rwa [List.length_reverse] at this
    rw [bigVal_reverse_cons, bigVal_reverse_cons]
    simp only [ltMSB]
    by_cases h1 : x < y
    · simp only [if_pos h1, true_iff]
      calc bigVal xs.reverse + W ^ xs.length * x
          < W ^ xs.length + W ^ xs.length * x := by omega
        _ = W ^ xs.length * (x + 1) := by ring
        _ ≤ W ^ xs.length * y := Nat.mul_le_mul_left _ (by omega)
        _ = W ^ ys.length * y := by rw [hlen']
        _ ≤ bigVal ys.reverse + W ^ ys.length * y := by omega
    · simp only [if_neg h1]
      by_cases h2 : y < x
      · rw [if_pos h2]
        simp only [Bool.false_eq_true, false_iff, not_lt]
        refine le_of_lt ?_
        calc bigVal ys.reverse + W ^ ys.length * y
            < W ^ ys.length + W ^ ys.length * y := by omega
          _ = W ^ ys.length * (y + 1) := by ring
          _ ≤ W ^ ys.length * x := Nat.mul_le_mul_left _ (by omega)
          _ = W ^ xs.length * x := by rw [hlen']
          _ ≤ bigVal xs.reverse + W ^ xs.length * x := by omega
      · have hxy : x = y := by omega
        subst hxy
        rw [if_neg h2]
        rw [ltMSB_iff xs ys hx2 hy2 hlen', hlen']
        omega

/-- Strict comparison agrees with numeric comparison of values. -/
theorem ltBig_iff {a b : List Nat} (ha : wfLimbs a) (hb : wfLimbs b)
    (hlen : a.length = b.length) : (ltBig a b = true ↔ bigVal a < bigVal b) := by
  have h := ltMSB_iff a.reverse b.reverse
    (by intro z hz; exact ha z (List.mem_reverse.mp hz))
    (by intro z hz; exact hb z (List.mem_reverse.mp hz))
    (by simp [hlen])
  rw [List.reverse_reverse, List.reverse_reverse] at h
  exact h

theorem natToLimbs_length : ∀ (l n : Nat), (natToLimbs l n).length = l
  | 0, _ => rfl
  | l + 1, n => by simp [natToLimbs, natToLimbs_length l]

theorem natToLimbs_wf : ∀ (l n : Nat), wfLimbs (natToLimbs l n)
  | 0, _ => wfLimbs_nil
  | l + 1, n => wfLimbs_cons (Nat.mod_lt _ W_pos) (natToLimbs_wf l _)

theorem natToLimbs_val : ∀ (l n : Nat), bigVal (natToLimbs l n) = n % W ^ l
  | 0, n => by simp [natToLimbs, bigVal_nil, Nat.mod_one]
  | l + 1, n => by
    simp only [natToLimbs, bigVal_cons, natToLimbs_val l]
    rw [pow_succ, Nat.mul_comm (W ^ l) W, Nat.mod_mul]

theorem natToLimbs_val_of_lt {l n : Nat} (h : n < W ^ l) :
    bigVal (natToLimbs l n) = n := by rw [natToLimbs_val, Nat.mod_eq_of_lt h]

theorem macRow_spec : ∀ (x : Nat) (bs rs1 : List Nat) (d : Nat) (rs2 : List Nat) (c : Nat),
    x < W → wfLimbs bs → wfLimbs rs1 → c < W → rs1.length = bs.length →
    ∃ out k, macRow x bs (rs1 ++ d :: rs2) c = out ++ k :: rs2 ∧
      out.length = bs.length ∧ wfLimbs out ∧ k < W ∧
      bigVal out + W ^ bs.length * k = bigVal rs1 + x * bigVal bs + c
  | x, [], [], d, rs2, c, _, _, _, hc, _ => by
    refine ⟨[], c, ?_, rfl, wfLimbs_nil, hc, ?_⟩
    · simp [macRow]
    · simp [bigVal_nil]
  | x, [], r :: rs1, d, rs2, c, _, _, _, _, hlen => by simp at hlen
  | x, b :: bs, [], d, rs2, c, _, _, _, _, hlen => by simp at hlen
  | x, b :: bs, r :: rs1, d, rs2, c, hx, hbs, hrs1, hc, hlen => by
    obtain ⟨hb1, hb2⟩ := wfLimbs_of_cons hbs
    obtain ⟨hr1, hr2⟩ := wfLimbs_of_cons hrs1
    simp only [List.length_cons] at hlen
    have hmul : x * b ≤ (W - 1) * (W - 1) :=
      Nat.mul_le_mul (by omega) (by omega)
    have hc' : (r + x * b + c) / W < W := by
      rw [W_lit] at hmul hr1 hc ⊢; omega
    obtain ⟨out, k, heq, hol, how, hkw, hval⟩ :=
      macRow_spec x bs rs1 d rs2 ((r + x * b + c) / W) hx hb2 hr2 hc' (by omega)
    refine ⟨(r + x * b + c) % W :: out, k, ?_, ?_, ?_, hkw, ?_⟩
    · simp only [List.cons_append, macRow, List.append_eq]
      rw [heq]
    · simp [hol]
    · exact wfLimbs_cons (Nat.mod_lt _ W_pos) how
    · have hdm := Nat.div_add_mod (r + x * b + c) W
      simp only [bigVal_cons, List.length_cons, pow_succ]
      calc (r + x * b + c) % W + W * bigVal out + W ^ bs.length * W * k
          = (r + x * b + c) % W + W * (bigVal out + W ^ bs.length * k) := by ring
        _ = (r + x * b + c) % W + W * (bigVal rs1 + x * bigVal bs + (r + x * b + c) / W) := by
            rw [hval]
        _ = ((r + x * b + c) % W + W * ((r + x * b + c) / W)) + W * bigVal rs1
              + x * (W * bigVal bs) := by ring
        _ = (r + x * b + c) + W * bigVal rs1 + x * (W * bigVal bs) := by omega
        _ = r + W * bigVal rs1 + x * (b + W * bigVal bs) + c := by ring

theorem mulLoop_spec : ∀ (bs as' rl : List Nat),
    0 < bs.length → wfLimbs bs → wfLimbs as' → wfLimbs rl → rl.length = bs.length →
    (mulLoop bs as' (rl ++ List.replicate as'.length 0)).length = rl.length + as'.length ∧
    wfLimbs (mulLoop bs as' (rl ++ List.replicate as'.length 0)) ∧
    bigVal (mulLoop bs as' (rl ++ List.replicate as'.length 0)) =
      bigVal rl + bigVal as' * bigVal bs
  | bs, [], rl, _, _, _, hrl, _ => by
    simp [mulLoop, bigVal_nil, hrl]
  | bs, a :: as'', rl, hL, hbs, has, hrl, hlen => by
    obtain ⟨ha1, ha2⟩ := wfLimbs_of_cons has
    obtain ⟨out, k, heq, hol, how, hkw, hval⟩ :=
      macRow_spec a bs rl 0 (List.replicate as''.length 0) 0 ha1 hbs hrl W_pos hlen
    cases out with
    | nil => rw [← hol] at hL; simp at hL
    | cons o os =>
      obtain ⟨ho1, hos⟩ := wfLimbs_of_cons how
      have hstep : mulLoop bs (a :: as'') (rl ++ List.replicate (a :: as'').length 0) =
          o :: mulLoop bs as'' ((os ++ [k]) ++ List.replicate as''.length 0) := by
        simp only [List.length_cons, List.replicate_succ, mulLoop]
        rw [heq]
        simp [List.cons_append, List.append_assoc]
      have hwf' : wfLimbs (os ++ [k]) :=
        wfLimbs_append hos (wfLimbs_cons hkw wfLimbs_nil)
      have hlen' : (os ++ [k]).length = bs.length := by
        simp only [List.length_cons] at hol
        simp only [List.length_append, List.length_cons, List.length_nil]
        omega
      obtain ⟨ihlen, ihwf, ihval⟩ := mulLoop_spec bs as'' (os ++ [k]) hL hbs ha2 hwf' hlen'
      rw [hstep]
      refine ⟨?_, wfLimbs_cons ho1 ihwf, ?_⟩
      · simp only [List.length_cons, ihlen, hlen']
        simp only [List.length_cons] at hol ⊢
        omega
      · have hsplit : o + W * bigVal (os ++ [k]) = bigVal rl + a * bigVal bs := by
          have e1 : bigVal (os ++ [k]) = bigVal os + W ^ os.length * k := by
            rw [bigVal_append]; simp [bigVal_cons, bigVal_nil]
          have e2 : bigVal (o :: os) + W ^ bs.length * k = bigVal rl + a * bigVal bs + 0 := hval
          simp only [bigVal_cons] at e2
          simp only [List.length_cons] at hol
          rw [← hol, pow_succ] at e2
          rw [e1]
          calc o + W * (bigVal os + W ^ os.length * k)
              = o + W * bigVal os + W ^ os.length * W * k := by ring
            _ = bigVal rl + a * bigVal bs := by omega
        simp only [bigVal_cons, ihval]
        calc o + W * (bigVal (os ++ [k]) + bigVal as'' * bigVal bs)
            = (o + W * bigVal (os ++ [k])) + W * bigVal as'' * bigVal bs := by ring
          _ = bigVal rl + a * bigVal bs + W * bigVal as'' * bigVal bs := by rw [hsplit]
          _ = bigVal rl + bigVal (a :: as'') * bigVal bs := by
              rw [bigVal_cons]; ring

theorem macChainAdc_spec : ∀ (k : Nat) (ms xs1 : List Nat) (y : Nat) (xs2 : List Nat)
    (carry c2 : Nat), k < W → wfLimbs ms → wfLimbs xs1 → y < W → carry < W → c2 ≤ 1 →
    xs1.length = ms.length →
    ∃ out c2', macChainAdc k ms (xs1 ++ y :: xs2) carry c2 = (out ++ xs2, c2') ∧
      out.length = ms.length + 1 ∧ wfLimbs out ∧ c2' ≤ 1 ∧
      bigVal out + W ^ (ms.length + 1) * c2' =
        bigVal xs1 + k * bigVal ms + carry + W ^ ms.length * (y + c2)
  | k, [], [], y, xs2, carry, c2, _, _, _, hy, hcarry, hc2, _ => by
    refine ⟨[(y + c2 + carry) % W], (y + c2 + carry) / W, ?_, rfl, ?_, ?_, ?_⟩
    · simp [macChainAdc]
    · exact wfLimbs_cons (Nat.mod_lt _ W_pos) wfLimbs_nil
    · rw [W_lit] at hy hcarry ⊢; omega
    · have hdm := Nat.div_add_mod (y + c2 + carry) W
      simp only [List.length_nil, bigVal_cons, bigVal_nil, pow_one, pow_zero,
        Nat.zero_add, Nat.mul_zero, Nat.add_zero, one_mul]
      omega
  | k, [], x :: xs1, y, xs2, carry, c2, _, _, _, _, _, _, hlen => by simp at hlen
  | k, m :: ms', [], y, xs2, carry, c2, _, _, _, _, _, _, hlen => by simp at hlen
  | k, m :: ms', x :: xs1, y, xs2, carry, c2, hk, hms, hxs1, hy, hcarry, hc2, hlen => by
    obtain ⟨hm1, hm2⟩ := wfLimbs_of_cons hms
    obtain ⟨hx1, hx2⟩ := wfLimbs_of_cons hxs1
    simp only [List.length_cons] at hlen
    have hmul : k * m ≤ (W - 1) * (W - 1) := Nat.mul_le_mul (by omega) (by omega)
    have hcarry' : (x + k * m + carry) / W < W := by
      rw [W_lit] at hmul hx1 hcarry ⊢; omega
    obtain ⟨out, c2', heq, hol, how, hc2', hval⟩ :=
      macChainAdc_spec k ms' xs1 y xs2 ((x + k * m + carry) / W) c2
        hk hm2 hx2 hy hcarry' hc2 (by omega)
    refine ⟨(x + k * m + carry) % W :: out, c2', ?_, ?_, ?_, hc2', ?_⟩
    · simp only [List.cons_append, macChainAdc, List.append_eq]
      rw [heq]
    · simp [hol]
    · exact wfLimbs_cons (Nat.mod_lt _ W_pos) how
    · have hdm := Nat.div_add_mod (x + k * m + carry) W
      simp only [bigVal_cons, List.length_cons]
      calc (x + k * m + carry) % W + W * bigVal out + W ^ (ms'.length + 1 + 1) * c2'
          = (x + k * m + carry) % W
              + W * (bigVal out + W ^ (ms'.length + 1) * c2') := by ring
        _ = (x + k * m + carry) % W
              + W * (bigVal xs1 + k * bigVal ms' + (x + k * m + carry) / W
                + W ^ ms'.length * (y + c2)) := by rw [hval]
        _ = ((x + k * m + carry) % W + W * ((x + k * m + carry) / W))
              + W * bigVal xs1 + k * (W * bigVal ms')
              + W * W ^ ms'.length * (y + c2) := by ring
        _ = (x + k * m + carry) + W * bigVal xs1 + k * (W * bigVal ms')
              + W * W ^ ms'.length * (y + c2) := by omega
        _ = x + W * bigVal xs1 + k * (m + W * bigVal ms') + carry
              + W ^ (ms'.length + 1) * (y + c2) := by rw [pow_succ]; ring

theorem list_split (l : List Nat) (i : Nat) (h : i < l.length) :
    ∃ u y v, l = u ++ y :: v ∧ u.length = i := by
  refine ⟨l.take i, l[i], l.drop (i + 1), ?_, ?_⟩
  · conv_lhs => rw [← List.take_append_drop i l]
    rw [List.drop_eq_getElem_cons h]
  · simp [List.length_take]
    omega

theorem redLoop_spec : ∀ (n : Nat) (s : List Nat) (c2 inv : Nat) (ms : List Nat),
    wfLimbs ms → 0 < ms.length →
    (1 + inv * (bigVal ms % W)) % W = 0 →
    wfLimbs s → s.length = n + ms.length → c2 ≤ 1 →
    ∃ mfac c2f, mfac < W ^ n ∧ c2f ≤ 1 ∧
      (redLoop inv ms n s c2).length = ms.length ∧
      wfLimbs (redLoop inv ms n s c2) ∧
      W ^ n * (bigVal (redLoop inv ms n s c2) + W ^ ms.length * c2f) =
        bigVal s + W ^ ms.length * c2 + mfac * bigVal ms
  | 0, s, c2, inv, ms, _, _, _, hs, hslen, hc2 => by
    refine ⟨0, c2, by norm_num, hc2, by simpa using hslen, hs, ?_⟩
    simp [redLoop]
  | n + 1, s, c2, inv, ms, hms, hmsL, hinv, hs, hslen, hc2 => by
    cases ms with
    | nil => simp at hmsL
    | cons m0 mrest =>
    cases s with
    | nil => simp only [List.length_nil] at hslen; omega
    | cons s0 tail =>
    obtain ⟨hm0, hmrest⟩ := wfLimbs_of_cons hms
    obtain ⟨hs0, htail⟩ := wfLimbs_of_cons hs
    simp only [List.length_cons] at hslen
    have hsplit : ∃ u y v, tail = u ++ y :: v ∧ u.length = mrest.length :=
      list_split tail mrest.length (by omega)
    obtain ⟨xs1, y, xs2, hts, hxs1len⟩ := hsplit
    have hwf_parts : wfLimbs xs1 ∧ y < W ∧ wfLimbs xs2 := by
      rw [hts] at htail
      refine ⟨fun z hz => htail z (by simp [hz]), htail y (by simp), fun z hz => htail z (by simp [hz])⟩
    obtain ⟨hwxs1, hy, hwxs2⟩ := hwf_parts
    have hk : s0 * inv % W < W := Nat.mod_lt _ W_pos
    have hkm : s0 * inv % W * m0 ≤ (W - 1) * (W - 1) :=
      Nat.mul_le_mul (by omega) (by omega)
    have hcarry1 : (s0 + s0 * inv % W * m0) / W < W := by
      rw [W_lit] at hkm hs0 ⊢; omega
    -- the chosen k makes the low word of the row vanish
    have hm0v : bigVal (m0 :: mrest) % W = m0 := by
      rw [bigVal_cons, Nat.add_mul_mod_self_left, Nat.mod_eq_of_lt hm0]
    have h0 : (1 + inv * m0) % W = 0 := by rw [hm0v] at hinv; exact hinv
    have hkey : (s0 + s0 * inv % W * m0) % W = 0 := by
      have h1 : s0 * inv % W * m0 ≡ s0 * inv * m0 [MOD W] :=
        (Nat.mod_modEq (s0 * inv) W).mul_right m0
      have h2 : s0 + s0 * inv % W * m0 ≡ s0 * (1 + inv * m0) [MOD W] := by
        have := h1.add_left s0
        calc s0 + s0 * inv % W * m0 ≡ s0 + s0 * inv * m0 [MOD W] := this
          _ = s0 * (1 + inv * m0) := by ring
      have h3 : s0 * (1 + inv * m0) ≡ 0 [MOD W] := by
        have h4 : (1 + inv * m0) ≡ 0 [MOD W] := by
          unfold Nat.ModEq; rw [Nat.zero_mod, h0]
        calc s0 * (1 + inv * m0) ≡ s0 * 0 [MOD W] := h4.mul_left s0
          _ = 0 := by ring
      have h5 := h2.trans h3
      unfold Nat.ModEq at h5
      rw [Nat.zero_mod] at h5
      exact h5
    obtain ⟨out, c2', heq, holen, howf, hc2', hE⟩ :=
      macChainAdc_spec (s0 * inv % W) mrest xs1 y xs2
        ((s0 + s0 * inv % W * m0) / W) c2 hk hmrest hwxs1 hy hcarry1 hc2 hxs1len
    have hredrow : redRow inv (m0 :: mrest) (s0 :: tail) c2 = (s0 :: (out ++ xs2), c2') := by
      simp only [redRow]
      rw [hts, heq]
    have hunfold : redLoop inv (m0 :: mrest) (n + 1) (s0 :: tail) c2 =
        redLoop inv (m0 :: mrest) n (out ++ xs2) c2' := by
      rw [show redLoop inv (m0 :: mrest) (n + 1) (s0 :: tail) c2 =
          redLoop inv (m0 :: mrest) n
            (redRow inv (m0 :: mrest) (s0 :: tail) c2).1.tail
            (redRow inv (m0 :: mrest) (s0 :: tail) c2).2 from rfl, hredrow]
      rfl
    have hwfnew : wfLimbs (out ++ xs2) := wfLimbs_append howf hwxs2
    have hlennew : (out ++ xs2).length = n + (m0 :: mrest).length := by
      have : tail.length = xs1.length + (1 + xs2.length) := by
        rw [hts]; simp only [List.length_append, List.length_cons]; omega
      simp only [List.length_append, List.length_cons, holen] at *
      omega
    obtain ⟨mfac', c2f, hmb, hc2f, hglen, hgwf, hIH⟩ :=
      redLoop_spec n (out ++ xs2) c2' inv (m0 :: mrest) hms hmsL hinv hwfnew hlennew hc2'
    -- the value equation for one row
    have hrow : W * (bigVal (out ++ xs2) + W ^ (m0 :: mrest).length * c2') =
        bigVal (s0 :: tail) + W ^ (m0 :: mrest).length * c2
          + s0 * inv % W * bigVal (m0 :: mrest) := by
      have hout : bigVal (out ++ xs2) = bigVal out + W ^ (mrest.length + 1) * bigVal xs2 := by
        rw [bigVal_append, holen]
      have htailv : bigVal tail
          = bigVal xs1 + W ^ mrest.length * (y + W * bigVal xs2) := by
        rw [hts, bigVal_append, hxs1len, bigVal_cons]
      have hWc : W * ((s0 + s0 * inv % W * m0) / W) = s0 + s0 * inv % W * m0 := by
        have hdm := Nat.div_add_mod (s0 + s0 * inv % W * m0) W
        omega
      simp only [List.length_cons, bigVal_cons, hout, htailv]
      calc W * (bigVal out + W ^ (mrest.length + 1) * bigVal xs2
              + W ^ (mrest.length + 1) * c2')
          = W * (bigVal out + W ^ (mrest.length + 1) * c2')
              + W * W ^ (mrest.length + 1) * bigVal xs2 := by ring
        _ = W * (bigVal xs1 + s0 * inv % W * bigVal mrest
              + (s0 + s0 * inv % W * m0) / W + W ^ mrest.length * (y + c2))
              + W * W ^ (mrest.length + 1) * bigVal xs2 := by rw [hE]
        _ = W * ((s0 + s0 * inv % W * m0) / W) + W * bigVal xs1
              + s0 * inv % W * (W * bigVal mrest) + W * W ^ mrest.length * (y + c2)
              + W * W ^ (mrest.length + 1) * bigVal xs2 := by ring
        _ = s0 + s0 * inv % W * m0 + W * bigVal xs1
              + s0 * inv % W * (W * bigVal mrest) + W * W ^ mrest.length * (y + c2)
              + W * W ^ (mrest.length + 1) * bigVal xs2 := by rw [hWc]
        _ = s0 + W * (bigVal xs1 + W ^ mrest.length * (y + W * bigVal xs2))
              + W ^ (mrest.length + 1) * c2
              + s0 * inv % W * (m0 + W * bigVal mrest) := by ring
    refine ⟨s0 * inv % W + W * mfac', c2f, ?_, hc2f, ?_, ?_, ?_⟩
    · calc s0 * inv % W + W * mfac' < W + W * mfac' := by omega
        _ = W * (mfac' + 1) := by ring
        _ ≤ W * W ^ n := Nat.mul_le_mul_left W (by omega)
        _ = W ^ (n + 1) := by rw [pow_succ, Nat.mul_comm]
    · rw [hunfold]; exact hglen
    · rw [hunfold]; exact hgwf
    · rw [hunfold]
      calc W ^ (n + 1) * (bigVal (redLoop inv (m0 :: mrest) n (out ++ xs2) c2')
              + W ^ (m0 :: mrest).length * c2f)
          = W * (W ^ n * (bigVal (redLoop inv (m0 :: mrest) n (out ++ xs2) c2')
              + W ^ (m0 :: mrest).length * c2f)) := by rw [pow_succ]; ring
        _ = W * (bigVal (out ++ xs2) + W ^ (m0 :: mrest).length * c2'
              + mfac' * bigVal (m0 :: mrest)) := by rw [hIH]
        _ = W * (bigVal (out ++ xs2) + W ^ (m0 :: mrest).length * c2')
              + W * mfac' * bigVal (m0 :: mrest) := by ring
        _ = bigVal (s0 :: tail) + W ^ (m0 :: mrest).length * c2
              + s0 * inv % W * bigVal (m0 :: mrest)
              + W * mfac' * bigVal (m0 :: mrest) := by rw [hrow]
        _ = bigVal (s0 :: tail) + W ^ (m0 :: mrest).length * c2
              + (s0 * inv % W + W * mfac') * bigVal (m0 :: mrest) := by ring

/-- Correctness of `mul_without_reduce` on operands below the modulus: the
result value is below `2 M` and congruent to `a · b · (2^(64L))^{-1} mod M`
(stated multiplicatively, without the inverse). -/
theorem mul_without_reduce_spec (inv : Nat) (ms a b : List Nat)
    (hms : wfLimbs ms) (hmsL : 0 < ms.length)
    (hinv : (1 + inv * (bigVal ms % W)) % W = 0)
    (hM2 : 2 * bigVal ms < W ^ ms.length)
    (ha : wfLimbs a) (halen : a.length = ms.length) (haM : bigVal a < bigVal ms)
    (hb : wfLimbs b) (hblen : b.length = ms.length) (hbM : bigVal b < bigVal ms) :
    (mul_without_reduce inv ms a b).length = ms.length ∧
    wfLimbs (mul_without_reduce inv ms a b) ∧
    bigVal (mul_without_reduce inv ms a b) < 2 * bigVal ms ∧
    bigVal (mul_without_reduce inv ms a b) * W ^ ms.length
      ≡ bigVal a * bigVal b [MOD bigVal ms] := by
  have hMpos : 0 < bigVal ms := Nat.pos_of_ne_zero (by intro h; rw [h] at haM; omega)
  have hrepl : List.replicate (2 * ms.length) 0 =
      List.replicate ms.length 0 ++ List.replicate a.length 0 := by
    rw [← List.replicate_add]
    congr 1
    omega
  obtain ⟨hplen, hpwf, hpval⟩ :=
    mulLoop_spec b a (List.replicate ms.length 0) (by omega) hb ha
      (wfLimbs_replicate_zero _) (by simp [hblen])
  rw [← hrepl] at hplen hpwf hpval
  rw [bigVal_replicate_zero, Nat.zero_add] at hpval
  obtain ⟨mfac, c2f, hmb, hc2f, hglen, hgwf, hEq⟩ :=
    redLoop_spec ms.length (mulLoop b a (List.replicate (2 * ms.length) 0)) 0 inv ms
      hms hmsL hinv hpwf
      (by simp only [hplen, List.length_replicate, halen]) (by omega)
  rw [hpval, Nat.mul_zero, Nat.add_zero] at hEq
  set G := redLoop inv ms ms.length (mulLoop b a (List.replicate (2 * ms.length) 0)) 0 with hG
  have hub : bigVal a * bigVal b + mfac * bigVal ms < W ^ ms.length * (2 * bigVal ms) := by
    have h1 : bigVal a * bigVal b < bigVal ms * bigVal ms := Nat.mul_lt_mul'' haM hbM
    have h2 : mfac * bigVal ms < W ^ ms.length * bigVal ms :=
      (Nat.mul_lt_mul_right hMpos).mpr hmb
    have h3 : bigVal ms * bigVal ms ≤ W ^ ms.length * bigVal ms :=
      Nat.mul_le_mul_right _ (by omega)
    calc bigVal a * bigVal b + mfac * bigVal ms
        < bigVal ms * bigVal ms + W ^ ms.length * bigVal ms := by omega
      _ ≤ W ^ ms.length * bigVal ms + W ^ ms.length * bigVal ms := by omega
      _ = W ^ ms.length * (2 * bigVal ms) := by ring
  have hlt : bigVal G + W ^ ms.length * c2f < 2 * bigVal ms := by
    have := hEq ▸ hub
    exact Nat.lt_of_mul_lt_mul_left this
  have hc2f0 : c2f = 0 := by
    rcases Nat.lt_or_ge (bigVal G + W ^ ms.length * c2f) (W ^ ms.length) with h | h
    · interval_cases c2f
      · rfl
      · exfalso; omega
    · omega
  rw [hc2f0, Nat.mul_zero, Nat.add_zero] at hEq hlt
  have hcong : bigVal G * W ^ ms.length ≡ bigVal a * bigVal b [MOD bigVal ms] := by
    have : bigVal G * W ^ ms.length = bigVal a * bigVal b + mfac * bigVal ms := by
      rw [Nat.mul_comm]; exact hEq
    unfold Nat.ModEq
    rw [this, Nat.add_mul_mod_self_right]
  exact ⟨hglen, hgwf, hlt, hcong⟩

/-- `const_reduce` brings a value below `2 M` into the canonical range and
preserves its residue. -/
theorem const_reduce_spec (ms g : List Nat) (hms : wfLimbs ms) (hg : wfLimbs g)
    (hlen : g.length = ms.length) (hlt : bigVal g < 2 * bigVal ms)
    (hMpos : 0 < bigVal ms) :
    (const_reduce ms g).length = ms.length ∧ wfLimbs (const_reduce ms g) ∧
    bigVal (const_reduce ms g) < bigVal ms ∧
    bigVal (const_reduce ms g) ≡ bigVal g [MOD bigVal ms] := by
  unfold const_reduce const_is_valid
  by_cases hv : ltBig g ms = true
  · rw [if_pos hv]
    exact ⟨hlen, hg, (ltBig_iff hg hms hlen).mp hv, Nat.ModEq.refl _⟩
  · rw [if_neg hv]
    have hge : bigVal ms ≤ bigVal g := by
      rcases Nat.lt_or_ge (bigVal g) (bigVal ms) with h | h
      · exact absurd ((ltBig_iff hg hms hlen).mpr h) hv
      · exact h
    have hval := sub_noborrow_val g ms 0 hg hms hlen (by omega) (by omega)
    refine ⟨?_, sub_noborrow_wf g ms 0, by omega, ?_⟩
    · rw [sub_noborrow_length, hlen]; simp
    · unfold Nat.ModEq
      have : bigVal g = bigVal (sub_noborrow g ms 0) + bigVal ms := by omega
      rw [this, Nat.add_mod_right]

/-- Correctness of `const_mul` (the Montgomery engine with its final
conditional subtraction): result below `M`, congruence `res · R ≡ a · b`. -/
theorem const_mul_spec (inv : Nat) (ms a b : List Nat)
    (hms : wfLimbs ms) (hmsL : 0 < ms.length)
    (hinv : (1 + inv * (bigVal ms % W)) % W = 0)
    (hM2 : 2 * bigVal ms < W ^ ms.length)
    (ha : wfLimbs a) (halen : a.length = ms.length) (haM : bigVal a < bigVal ms)
    (hb : wfLimbs b) (hblen : b.length = ms.length) (hbM : bigVal b < bigVal ms) :
    (const_mul inv ms a b).length = ms.length ∧
    wfLimbs (const_mul inv ms a b) ∧
    bigVal (const_mul inv ms a b) < bigVal ms ∧
    bigVal (const_mul inv ms a b) * W ^ ms.length
      ≡ bigVal a * bigVal b [MOD bigVal ms] := by
  have hMpos : 0 < bigVal ms := Nat.pos_of_ne_zero (by intro h; rw [h] at haM; omega)
  obtain ⟨hplen, hpwf, hplt, hpcong⟩ :=
    mul_without_reduce_spec inv ms a b hms hmsL hinv hM2 ha halen haM hb hblen hbM
  obtain ⟨hrlen, hrwf, hrlt, hrcong⟩ :=
    const_reduce_spec ms (mul_without_reduce inv ms a b) hms hpwf hplen hplt hMpos
  refine ⟨hrlen, hrwf, hrlt, ?_⟩
  calc bigVal (const_mul inv ms a b) * W ^ ms.length
      ≡ bigVal (mul_without_reduce inv ms a b) * W ^ ms.length [MOD bigVal ms] :=
        hrcong.mul_right _
    _ ≡ bigVal a * bigVal b [MOD bigVal ms] := hpcong

@[simp]
theorem Fp_limbs_mk (xs : List Nat) : (Fp.mk xs).limbs = xs := rfl

theorem M_pos {P : FpParams} (hP : wellFormed P) : 0 < M P := by
  obtain ⟨-, -, -, -, -, -, -, -, h, -⟩ := hP
  omega

theorem coprime_W_pow_M {P : FpParams} (hP : wellFormed P) :
    Nat.Coprime (W ^ P.nlimbs) (M P) := by
  obtain ⟨-, -, -, -, -, -, -, hodd, -⟩ := hP
  have h2 : Nat.Coprime 2 (M P) := by
    rw [Nat.coprime_two_left]
    exact Nat.odd_iff.mpr hodd
  have : Nat.Coprime (2 ^ (64 * P.nlimbs)) (M P) := Nat.Coprime.pow_left _ h2
  have hW : W ^ P.nlimbs = 2 ^ (64 * P.nlimbs) := by
    rw [show W = 2 ^ 64 from rfl, ← pow_mul]
  rwa [hW]

/-- The Montgomery engine at the `Fp` level: `mul_assign` preserves the
invariant and multiplies logical values (with one factor `R⁻¹`). -/
theorem mul_assign_spec {P : FpParams} (hP : wellFormed P) {a b : Fp}
    (ha : good P a) (hb : good P b) :
    good P (mul_assign P a b) ∧
    bigVal (mul_assign P a b).limbs * W ^ P.nlimbs
      ≡ bigVal a.limbs * bigVal b.limbs [MOD M P] := by
  obtain ⟨hL, hml, hmw, -, -, -, -, -, -, hM2, -, -, -, hinv, -⟩ := hP
  obtain ⟨halen, haw, haM⟩ := ha
  obtain ⟨hblen, hbw, hbM⟩ := hb
  have := const_mul_spec P.INV P.MODULUS a.limbs b.limbs hmw (by omega) hinv
    (by rwa [hml]) haw (by omega) haM hbw (by omega) hbM
  obtain ⟨h1, h2, h3, h4⟩ := this
  exact ⟨⟨by simpa [mul_assign, hml] using h1, h2, h3⟩, by simpa [mul_assign, hml] using h4⟩

/-- `into_repr` produces the logical value: a canonical integer `v < M`
with `v · R ≡ stored (mod M)`. -/
theorem into_repr_spec {P : FpParams} (hP : wellFormed P) {a : Fp} (ha : good P a) :
    (into_repr P a).length = P.nlimbs ∧ wfLimbs (into_repr P a) ∧
    bigVal (into_repr P a) < M P ∧
    bigVal (into_repr P a) * W ^ P.nlimbs ≡ bigVal a.limbs [MOD M P] := by
  obtain ⟨hL, hml, hmw, -, -, -, -, -, hM1, hM2, -, -, -, hinv, -⟩ := hP
  obtain ⟨halen, haw, haM⟩ := ha
  have hone : bigVal (natToLimbs P.nlimbs 1) = 1 := by
    apply natToLimbs_val_of_lt
    calc 1 < 2 * M P := by omega
      _ < W ^ P.nlimbs := hM2
  have := const_mul_spec P.INV P.MODULUS a.limbs (natToLimbs P.nlimbs 1) hmw (by omega)
    hinv (by rwa [hml]) haw (by omega) haM (natToLimbs_wf _ _)
    (by rw [natToLimbs_length]; omega) (by rw [hone]; exact hM1)
  obtain ⟨h1, h2, h3, h4⟩ := this
  rw [hone, Nat.mul_one] at h4
  refine ⟨by simpa [into_repr, hml] using h1, h2, h3, ?_⟩
  rw [← hml]
  exact h4

theorem zeroFp_good {P : FpParams} (hP : wellFormed P) : good P (zeroFp P) := by
  obtain ⟨hL, -, -, -, -, -, -, -, hM1, -⟩ := hP
  refine ⟨natToLimbs_length _ _, natToLimbs_wf _ _, ?_⟩
  show bigVal (natToLimbs P.nlimbs 0) < M P
  rw [natToLimbs_val, Nat.zero_mod]
  omega

theorem zeroFp_val (P : FpParams) : bigVal (zeroFp P).limbs = 0 := by
  simp [zeroFp, natToLimbs_val, Nat.zero_mod]

theorem oneFp_good {P : FpParams} (hP : wellFormed P) : good P (oneFp P) := by
  obtain ⟨hL, -, -, hRlen, hRw, -, -, -, hM1, -, hRval, -⟩ := hP
  refine ⟨hRlen, hRw, ?_⟩
  show bigVal P.R < M P
  rw [hRval]
  exact Nat.mod_lt _ (by omega)

theorem fp_is_zero_iff {P : FpParams} {a : Fp} (ha : good P a) :
    (fp_is_zero a = true ↔ bigVal a.limbs = 0) := is_zero_iff a.limbs

/-- `reduce` restores the invariant from a value below `2 M` and preserves
the residue. -/
theorem fp_reduce_spec {P : FpParams} (hP : wellFormed P) {x : Fp}
    (hlen : x.limbs.length = P.nlimbs) (hw : wfLimbs x.limbs)
    (hlt : bigVal x.limbs < 2 * M P) :
    good P (fp_reduce P x) ∧ bigVal (fp_reduce P x).limbs ≡ bigVal x.limbs [MOD M P] := by
  obtain ⟨hL, hml, hmw, -, -, -, -, -, hM1, -⟩ := hP
  have hMe : bigVal P.MODULUS = M P := rfl
  have hstep : fp_reduce P x = ⟨const_reduce P.MODULUS x.limbs⟩ := by
    unfold fp_reduce fp_is_valid const_reduce const_is_valid
    split <;> rfl
  obtain ⟨h1, h2, h3, h4⟩ :=
    const_reduce_spec P.MODULUS x.limbs hmw hw (by omega) (by omega) (by omega)
  rw [hstep]
  exact ⟨⟨by simpa [hml] using h1, h2, h3⟩, h4⟩

/-- `add_assign` preserves the invariant; the stored value is the modular
sum. -/
theorem add_assign_spec {P : FpParams} (hP : wellFormed P) {a b : Fp}
    (ha : good P a) (hb : good P b) :
    good P (add_assign P a b) ∧
    bigVal (add_assign P a b).limbs ≡ bigVal a.limbs + bigVal b.limbs [MOD M P] := by
  have hP' := hP
  obtain ⟨hL, hml, hmw, -, -, -, -, -, hM1, hM2, -⟩ := hP'
  have hMe : bigVal P.MODULUS = M P := rfl
  obtain ⟨halen, haw, haM⟩ := ha
  obtain ⟨hblen, hbw, hbM⟩ := hb
  have hsum := add_nocarry_val a.limbs b.limbs 0 haw hbw (by omega) (by omega)
    (by rw [halen]; omega)
  have hwf := add_nocarry_wf a.limbs b.limbs 0
  have hlen : (add_nocarry a.limbs b.limbs 0).length = P.nlimbs := by
    rw [add_nocarry_length, halen, hblen]; simp
  obtain ⟨hg, hres⟩ := @fp_reduce_spec P hP ⟨add_nocarry a.limbs b.limbs 0⟩
    hlen hwf (by rw [hsum]; omega)
  exact ⟨hg, by rw [← Nat.add_zero (bigVal a.limbs + bigVal b.limbs), ← hsum]; exact hres⟩

/-- `sub_assign` preserves the invariant; the stored value is the modular
difference. -/
theorem sub_assign_spec {P : FpParams} (hP : wellFormed P) {a b : Fp}
    (ha : good P a) (hb : good P b) :
    good P (sub_assign P a b) ∧
    bigVal (sub_assign P a b).limbs + bigVal b.limbs ≡ bigVal a.limbs [MOD M P] := by
  have hP' := hP
  obtain ⟨hL, hml, hmw, -, -, -, -, -, hM1, hM2, -⟩ := hP'
  have hMe : bigVal P.MODULUS = M P := rfl
  obtain ⟨halen, haw, haM⟩ := ha
  obtain ⟨hblen, hbw, hbM⟩ := hb
  unfold sub_assign
  by_cases hc : ltBig a.limbs b.limbs = true
  · rw [if_pos hc]
    have hlt : bigVal a.limbs < bigVal b.limbs :=
      (ltBig_iff haw hbw (by omega)).mp hc
    have haddv := add_nocarry_val a.limbs P.MODULUS 0 haw hmw (by omega) (by omega)
      (by rw [halen]; omega)
    have haddwf := add_nocarry_wf a.limbs P.MODULUS 0
    have haddlen : (add_nocarry a.limbs P.MODULUS 0).length = P.nlimbs := by
      rw [add_nocarry_length, halen, hml]; simp
    have hsub := sub_noborrow_val (add_nocarry a.limbs P.MODULUS 0) b.limbs 0
      haddwf hbw (by omega) (by omega) (by rw [haddv]; omega)
    refine ⟨⟨?_, sub_noborrow_wf _ _ _, ?_⟩, ?_⟩
    · simp only [Fp_limbs_mk]
      rw [sub_noborrow_length, haddlen, hblen]; simp
    · simp only [Fp_limbs_mk]
      rw [haddv] at hsub; omega
    · simp only [Fp_limbs_mk]
      rw [haddv] at hsub
      have : bigVal (sub_noborrow (add_nocarry a.limbs P.MODULUS 0) b.limbs 0)
          + bigVal b.limbs = bigVal a.limbs + M P := by omega
      rw [this]
      exact Nat.add_modEq_right
  · rw [if_neg hc]
    have hge : bigVal b.limbs ≤ bigVal a.limbs := by
      rcases Nat.lt_or_ge (bigVal a.limbs) (bigVal b.limbs) with h | h
      · exact absurd ((ltBig_iff haw hbw (by omega)).mpr h) hc
      · exact h
    have hsub := sub_noborrow_val a.limbs b.limbs 0 haw hbw (by omega) (by omega)
      (by omega)
    refine ⟨⟨?_, sub_noborrow_wf _ _ _, by simp only [Fp_limbs_mk]; omega⟩, ?_⟩
    · simp only [Fp_limbs_mk]
      rw [sub_noborrow_length, halen, hblen]; simp
    · simp only [Fp_limbs_mk]
      have : bigVal (sub_noborrow a.limbs b.limbs 0) + bigVal b.limbs
          = bigVal a.limbs := by omega
      rw [this]

/-- `neg` preserves the invariant; the result is the additive inverse. -/
theorem neg_spec {P : FpParams} (hP : wellFormed P) {a : Fp} (ha : good P a) :
    good P (neg P a) ∧
    bigVal (neg P a).limbs + bigVal a.limbs ≡ 0 [MOD M P] := by
  have hP' := hP
  obtain ⟨hL, hml, hmw, -, -, -, -, -, hM1, hM2, -⟩ := hP'
  have hMe : bigVal P.MODULUS = M P := rfl
  obtain ⟨halen, haw, haM⟩ := ha
  unfold neg
  by_cases hz : fp_is_zero a = true
  · rw [if_pos hz]
    have h0 : bigVal a.limbs = 0 := (is_zero_iff _).mp hz
    exact ⟨⟨halen, haw, haM⟩, by rw [h0]⟩
  · rw [if_neg hz]
    have h0 : bigVal a.limbs ≠ 0 := fun h => hz ((is_zero_iff _).mpr h)
    have hsub := sub_noborrow_val P.MODULUS a.limbs 0 hmw haw (by omega) (by omega)
      (by omega)
    refine ⟨⟨?_, sub_noborrow_wf _ _ _, by simp only [Fp_limbs_mk]; omega⟩, ?_⟩
    · simp only [Fp_limbs_mk]
      rw [sub_noborrow_length, halen, hml]; simp
    · simp only [Fp_limbs_mk]
      have : bigVal (sub_noborrow P.MODULUS a.limbs 0) + bigVal a.limbs = M P := by
        omega
      rw [this]
      exact (Nat.modEq_zero_iff_dvd).mpr dvd_rfl

/-- `double_in_place` preserves the invariant; the stored value doubles. -/
theorem double_in_place_spec {P : FpParams} (hP : wellFormed P) {a : Fp}
    (ha : good P a) :
    good P (double_in_place P a) ∧
    bigVal (double_in_place P a).limbs ≡ 2 * bigVal a.limbs [MOD M P] := by
  have hP' := hP
  obtain ⟨hL, hml, hmw, -, -, -, -, -, hM1, hM2, -⟩ := hP'
  have hMe : bigVal P.MODULUS = M P := rfl
  obtain ⟨halen, haw, haM⟩ := ha
  have hv := mul2_val a.limbs 0 haw (by omega) (by rw [halen]; omega)
  have hwf := mul2_wf a.limbs 0
  have hlen : (mul2 a.limbs 0).length = P.nlimbs := by rw [mul2_length, halen]
  obtain ⟨hg, hres⟩ := @fp_reduce_spec P hP ⟨mul2 a.limbs 0⟩ hlen hwf
    (by rw [hv]; omega)
  refine ⟨hg, ?_⟩
  have : 2 * bigVal a.limbs = 2 * bigVal a.limbs + 0 := by omega
  rw [this, ← hv]
  exact hres

/-- `from_repr` accepts exactly the integers below `M` and produces the
Montgomery form. -/
theorem from_repr_spec {P : FpParams} (hP : wellFormed P) (r : List Nat)
    (hw : wfLimbs r) (hlen : r.length = P.nlimbs) :
    (bigVal r < M P →
      ∃ f, from_repr P r = some f ∧ good P f ∧
        bigVal f.limbs = bigVal r * bigVal P.R % M P) ∧
    (M P ≤ bigVal r → from_repr P r = none) := by
  have hP' := hP
  obtain ⟨hL, hml, hmw, hRlen, hRw, hR2len, hR2w, hModd, hM1, hM2, hRval, hR2val, -⟩ := hP'
  constructor
  · intro hr
    by_cases hz : is_zero r = true
    · have h0 : bigVal r = 0 := (is_zero_iff _).mp hz
      refine ⟨⟨r⟩, by simp [from_repr, hz], ⟨hlen, hw, hr⟩, ?_⟩
      simp only [Fp_limbs_mk, h0, Nat.zero_mul, Nat.zero_mod]
    · have hlt : ltBig r P.MODULUS = true := (ltBig_iff hw hmw (by omega)).mpr hr
      have hgr : good P ⟨r⟩ := ⟨hlen, hw, hr⟩
      have hgR2 : good P (⟨P.R2⟩ : Fp) := by
        refine ⟨hR2len, hR2w, ?_⟩
        show bigVal P.R2 < M P
        rw [hR2val]
        exact Nat.mod_lt _ (by omega)
      obtain ⟨hgf, hcong⟩ := mul_assign_spec hP hgr hgR2
      refine ⟨mul_assign P ⟨r⟩ ⟨P.R2⟩, by simp [from_repr, hz, hlt], hgf, ?_⟩
      -- cancel one factor R from the congruence
      have h1 : bigVal P.R2 ≡ W ^ P.nlimbs * W ^ P.nlimbs [MOD M P] := by
        rw [hR2val]; exact Nat.mod_modEq _ _
      have h2 : bigVal (mul_assign P ⟨r⟩ ⟨P.R2⟩).limbs * W ^ P.nlimbs
          ≡ bigVal r * W ^ P.nlimbs * W ^ P.nlimbs [MOD M P] := by
        calc bigVal (mul_assign P ⟨r⟩ ⟨P.R2⟩).limbs * W ^ P.nlimbs
            ≡ bigVal r * bigVal P.R2 [MOD M P] := hcong
          _ ≡ bigVal r * (W ^ P.nlimbs * W ^ P.nlimbs) [MOD M P] := h1.mul_left _
          _ = bigVal r * W ^ P.nlimbs * W ^ P.nlimbs := by ring
      have h3 : bigVal (mul_assign P ⟨r⟩ ⟨P.R2⟩).limbs
          ≡ bigVal r * W ^ P.nlimbs [MOD M P] :=
        (Nat.ModEq.cancel_right_of_coprime (coprime_W_pow_M hP).symm h2)
      have h4 : bigVal r * W ^ P.nlimbs ≡ bigVal r * bigVal P.R [MOD M P] := by
        rw [hRval]
        exact (Nat.mod_modEq _ _).symm.mul_left _
      have h5 := h3.trans h4
      obtain ⟨-, -, hflt⟩ := hgf
      unfold Nat.ModEq at h5
      rw [Nat.mod_eq_of_lt hflt] at h5
      exact h5
  · intro hr
    have hz : is_zero r ≠ true := by
      intro h
      have := (is_zero_iff _).mp h
      omega
    have hlt : ltBig r P.MODULUS ≠ true := by
      intro h
      have := (ltBig_iff hw hmw (by omega)).mp h
      have hMe : bigVal P.MODULUS = M P := rfl
      omega
    simp [from_repr, hz, hlt]

/-- Converting to the logical integer and back recovers the element. -/
theorem from_repr_into_repr {P : FpParams} (hP : wellFormed P) {a : Fp}
    (ha : good P a) : from_repr P (into_repr P a) = some a := by
  obtain ⟨hilen, hiw, hilt, hicong⟩ := into_repr_spec hP ha
  obtain ⟨hex, -⟩ := from_repr_spec hP (into_repr P a) hiw hilen
  obtain ⟨f, hfeq, hgf, hfval⟩ := hex hilt
  have hP' := hP
  obtain ⟨hL, hml, hmw, hRlen, hRw, -, -, -, hM1, hM2, hRval, -⟩ := hP'
  obtain ⟨halen, haw, haM⟩ := ha
  obtain ⟨hflen, hfw, hfM⟩ := hgf
  -- the recovered value is congruent to the original stored value
  have h1 : bigVal (into_repr P a) * bigVal P.R
      ≡ bigVal (into_repr P a) * W ^ P.nlimbs [MOD M P] := by
    rw [hRval]
    exact (Nat.mod_modEq _ _).mul_left _
  have h2 : bigVal f.limbs ≡ bigVal a.limbs [MOD M P] := by
    calc bigVal f.limbs
        ≡ bigVal (into_repr P a) * bigVal P.R [MOD M P] := by
          rw [hfval]; exact Nat.mod_modEq _ _
      _ ≡ bigVal (into_repr P a) * W ^ P.nlimbs [MOD M P] := h1
      _ ≡ bigVal a.limbs [MOD M P] := hicong
  have h3 : bigVal f.limbs = bigVal a.limbs := by
    unfold Nat.ModEq at h2
    rw [Nat.mod_eq_of_lt hfM, Nat.mod_eq_of_lt haM] at h2
    exact h2
  have h4 : f = a := Fp.ext (bigVal_inj hfw haw (by omega) h3)
  rw [hfeq, h4]

/-- C1: for all field elements `a`, `b`, multiplication (the `MulAssign`
driving the Montgomery multiply-and-reduce engine) produces the element
whose logical integer value is `into_repr(a) * into_repr(b) mod M`. -/
theorem C1_mul_matches_reference_product (P : FpParams) (hP : wellFormed P)
    (a b : Fp) (ha : good P a) (hb : good P b) :
    bigVal (into_repr P (mul_assign P a b)) =
      bigVal (into_repr P a) * bigVal (into_repr P b) % M P := by
  obtain ⟨hgab, habcong⟩ := mul_assign_spec hP ha hb
  obtain ⟨-, -, hwlt, hwcong⟩ := into_repr_spec hP hgab
  obtain ⟨-, -, hult, hucong⟩ := into_repr_spec hP ha
  obtain ⟨-, -, htlt, htcong⟩ := into_repr_spec hP hb
  have hco := (coprime_W_pow_M hP).symm
  -- cancel two factors of R
  have h1 : bigVal (into_repr P (mul_assign P a b)) * W ^ P.nlimbs * W ^ P.nlimbs
      ≡ (bigVal (into_repr P a) * bigVal (into_repr P b))
          * W ^ P.nlimbs * W ^ P.nlimbs [MOD M P] := by
    calc bigVal (into_repr P (mul_assign P a b)) * W ^ P.nlimbs * W ^ P.nlimbs
        ≡ bigVal (mul_assign P a b).limbs * W ^ P.nlimbs [MOD M P] :=
          hwcong.mul_right _
      _ ≡ bigVal a.limbs * bigVal b.limbs [MOD M P] := habcong
      _ ≡ (bigVal (into_repr P a) * W ^ P.nlimbs)
            * (bigVal (into_repr P b) * W ^ P.nlimbs) [MOD M P] :=
          (hucong.mul htcong).symm
      _ = (bigVal (into_repr P a) * bigVal (into_repr P b))
            * W ^ P.nlimbs * W ^ P.nlimbs := by ring
  have h2 := Nat.ModEq.cancel_right_of_coprime hco
    (Nat.ModEq.cancel_right_of_coprime hco h1)
  unfold Nat.ModEq at h2
  rw [Nat.mod_eq_of_lt hwlt] at h2
  exact h2

/-- C8: `from_repr (into_repr a) = Some a` for every field element `a`. -/
theorem C8_from_repr_into_repr (P : FpParams) (hP : wellFormed P) (a : Fp)
    (ha : good P a) : from_repr P (into_repr P a) = some a :=
  from_repr_into_repr hP ha

theorem natToBytes_length : ∀ (k n : Nat), (natToBytes k n).length = k
  | 0, _ => rfl
  | k + 1, n => by simp [natToBytes, natToBytes_length k]

theorem natToBytes_wf : ∀ (k n : Nat), wfBytes (natToBytes k n)
  | 0, _ => by intro b hb; cases hb
  | k + 1, n => by
    intro b hb
    rcases List.mem_cons.mp hb with h | h
    · exact h ▸ Nat.mod_lt _ (by omega)
    · exact natToBytes_wf k _ b h

theorem bytesVal_natToBytes : ∀ (k n : Nat), bytesVal (natToBytes k n) = n % 256 ^ k
  | 0, n => by simp [natToBytes, bytesVal, Nat.mod_one]
  | k + 1, n => by
    simp only [natToBytes, bytesVal, bytesVal_natToBytes k]
    rw [pow_succ, Nat.mul_comm (256 ^ k) 256, Nat.mod_mul]

theorem bytesVal_natToBytes_of_lt {k n : Nat} (h : n < 256 ^ k) :
    bytesVal (natToBytes k n) = n := by
  rw [bytesVal_natToBytes, Nat.mod_eq_of_lt h]

theorem bytesVal_nil : bytesVal [] = 0 := rfl

theorem bytesVal_cons (b : Nat) (bs : List Nat) :
    bytesVal (b :: bs) = b + 256 * bytesVal bs := rfl

theorem bytesVal_append (u v : List Nat) :
    bytesVal (u ++ v) = bytesVal u + 256 ^ u.length * bytesVal v := by
  induction u with
  | nil => simp [bytesVal]
  | cons b u ih =>
    simp only [List.cons_append, bytesVal_cons, List.length_cons, pow_succ]
    rw [ih]
    ring

theorem bytesVal_lt {bs : List Nat} (h : wfBytes bs) : bytesVal bs < 256 ^ bs.length := by
  induction bs with
  | nil => simp [bytesVal]
  | cons b bs ih =>
    have hb : b < 256 := h b (List.mem_cons_self _ _)
    have hbs : wfBytes bs := fun x hx => h x (List.mem_cons_of_mem _ hx)
    have := ih hbs
    simp only [bytesVal, List.length_cons]
    calc b + 256 * bytesVal bs < 256 + 256 * bytesVal bs := by omega
      _ = 256 * (1 + bytesVal bs) := by ring
      _ ≤ 256 * 256 ^ bs.length := Nat.mul_le_mul_left _ (by omega)
      _ = 256 ^ (bs.length + 1) := by rw [pow_succ, Nat.mul_comm]

/-- Bytes only depend on the value modulo `256 ^ k`. -/
theorem natToBytes_congr : ∀ (k v w : Nat), v % 256 ^ k = w % 256 ^ k →
    natToBytes k v = natToBytes k w
  | 0, _, _, _ => rfl
  | k + 1, v, w, h => by
    have h1 : v % 256 = w % 256 := by
      have hd : (256 : Nat) ∣ 256 ^ (k + 1) := dvd_pow_self 256 (by omega)
      have hv : v ≡ w [MOD 256 ^ (k + 1)] := h
      exact (Nat.ModEq.of_dvd hd hv)
    have h2 : v / 256 % 256 ^ k = w / 256 % 256 ^ k := by
      have e1 : v / 256 % 256 ^ k = v % (256 * 256 ^ k) / 256 :=
        (Nat.mod_mul_right_div_self v 256 (256 ^ k)).symm
      have e2 : w / 256 % 256 ^ k = w % (256 * 256 ^ k) / 256 :=
        (Nat.mod_mul_right_div_self w 256 (256 ^ k)).symm
      rw [e1, e2]
      have : (256 : Nat) * 256 ^ k = 256 ^ (k + 1) := by rw [pow_succ, Nat.mul_comm]
      rw [this, h]
    simp only [natToBytes, h1, natToBytes_congr k _ _ h2]

/-- Splitting the byte representation. -/
theorem natToBytes_split : ∀ (m n v : Nat),
    natToBytes (m + n) v = natToBytes m v ++ natToBytes n (v / 256 ^ m)
  | 0, n, v => by simp [natToBytes]
  | m + 1, n, v => by
    have : m + 1 + n = (m + n) + 1 := by omega
    rw [this]
    simp only [natToBytes, List.cons_append]
    rw [natToBytes_split m n (v / 256)]
    congr 2
    rw [Nat.div_div_eq_div_mul, pow_succ, Nat.mul_comm (256 ^ m) 256]

theorem W_as_bytes : W = 256 ^ 8 := by decide

/-- Limb-wise byte output equals the byte representation of the value. -/
theorem limbsToBytes_eq : ∀ (xs : List Nat), wfLimbs xs →
    limbsToBytes xs = natToBytes (8 * xs.length) (bigVal xs)
  | [], _ => rfl
  | x :: xs, h => by
    obtain ⟨hx, hxs⟩ := wfLimbs_of_cons h
    simp only [limbsToBytes, List.length_cons, bigVal_cons]
    have hsplit : 8 * (xs.length + 1) = 8 + 8 * xs.length := by omega
    rw [hsplit, natToBytes_split 8 (8 * xs.length) (x + W * bigVal xs)]
    congr 1
    · apply natToBytes_congr
      rw [← W_as_bytes]
      have h1 : (x + W * bigVal xs) % W = x % W := by
        simp [Nat.add_mul_mod_self_left]
      rw [h1]
    · rw [limbsToBytes_eq xs hxs]
      congr 1
      rw [← W_as_bytes]
      rw [Nat.add_mul_div_left x _ W_pos, Nat.div_eq_of_lt hx]
      omega

/-- Reading limbs from bytes: value, shape. -/
theorem bytesToLimbs_spec : ∀ (l : Nat) (bs : List Nat), wfBytes bs →
    8 * l ≤ bs.length →
    (bytesToLimbs l bs).length = l ∧ wfLimbs (bytesToLimbs l bs) ∧
    bigVal (bytesToLimbs l bs) = bytesVal (bs.take (8 * l))
  | 0, bs, _, _ =>
    ⟨rfl, wfLimbs_nil, by simp [bytesToLimbs, bigVal_nil, bytesVal_nil]⟩
  | l + 1, bs, hwf, hlen => by
    have hwfd : wfBytes (bs.drop 8) := fun b hb => hwf b (List.mem_of_mem_drop hb)
    have hlend : 8 * l ≤ (bs.drop 8).length := by
      rw [List.length_drop]; omega
    obtain ⟨ih1, ih2, ih3⟩ := bytesToLimbs_spec l (bs.drop 8) hwfd hlend
    have hwft : wfBytes (bs.take 8) := fun b hb => hwf b (List.mem_of_mem_take hb)
    have hlimb : bytesVal (bs.take 8) < W := by
      rw [W_as_bytes]
      calc bytesVal (bs.take 8) < 256 ^ (bs.take 8).length := bytesVal_lt hwft
        _ ≤ 256 ^ 8 := Nat.pow_le_pow_right (by omega) (by simp [List.length_take])
    refine ⟨by simp [bytesToLimbs, ih1], wfLimbs_cons hlimb ih2, ?_⟩
    simp only [bytesToLimbs, bigVal_cons, ih3]
    have hsplit : bs.take (8 * (l + 1)) = bs.take 8 ++ (bs.drop 8).take (8 * l) := by
      rw [← List.take_add]
      congr 1
      omega
    rw [hsplit, bytesVal_append]
    have hlen8 : (bs.take 8).length = 8 := by
      simp [List.length_take]; omega
    rw [hlen8, ← W_as_bytes]

/-- Disjoint `OR` is addition: the flag mask occupies bits above the data. -/
theorem lor_mul_pow {k a v : Nat} (h : a < 2 ^ k) : a ||| 2 ^ k * v = 2 ^ k * v + a := by
  apply Nat.eq_of_testBit_eq
  intro j
  rw [Nat.testBit_or, Nat.testBit_mul_pow_two_add v h j, Nat.testBit_mul_pow_two]
  by_cases hj : j < k
  · have : ¬(j ≥ k) := by omega
    simp [hj, this]
  · have hk : k ≤ j := by omega
    have ha : Nat.testBit a j = false :=
      Nat.testBit_lt_two_pow (lt_of_lt_of_le h (Nat.pow_le_pow_right (by omega) hk))
    simp [hj, hk, ha]

theorem getD_append_left : ∀ (s t : List Nat) (i : Nat), i < s.length →
    (s ++ t).getD i 0 = s.getD i 0
  | [], _, i, h => absurd h (by simp)
  | a :: s, t, 0, _ => rfl
  | a :: s, t, i + 1, h => getD_append_left s t i (by simpa using h)

theorem getD_set_self : ∀ (l : List Nat) (i x : Nat), i < l.length →
    (l.set i x).getD i 0 = x
  | [], i, x, h => absurd h (by simp)
  | a :: l, 0, x, _ => rfl
  | a :: l, i + 1, x, h => getD_set_self l i x (by simpa using h)

theorem set_getD_self : ∀ (l : List Nat) (i : Nat), i < l.length →
    l.set i (l.getD i 0) = l
  | [], i, h => absurd h (by simp)
  | a :: l, 0, _ => rfl
  | a :: l, i + 1, h => by
    show a :: l.set i (l.getD i 0) = a :: l
    rw [set_getD_self l i (by simpa using h)]

theorem natToBytes_getD : ∀ (k n i : Nat), i < k →
    (natToBytes k n).getD i 0 = n / 256 ^ i % 256
  | 0, _, _, h => absurd h (by omega)
  | k + 1, n, 0, _ => by simp [natToBytes]
  | k + 1, n, i + 1, h => by
    show (natToBytes k (n / 256)).getD i 0 = n / 256 ^ (i + 1) % 256
    rw [natToBytes_getD k (n / 256) i (by omega)]
    have hdd : n / 256 / 256 ^ i = n / 256 ^ (i + 1) := by
      rw [Nat.div_div_eq_div_mul, pow_succ, Nat.mul_comm (256 ^ i) 256]
    rw [hdd]

theorem natToBytes_zero : ∀ (k : Nat), natToBytes k 0 = List.replicate k 0
  | 0 => rfl
  | k + 1 => by simp [natToBytes, List.replicate_succ, natToBytes_zero k]

theorem pow256_eq (m : Nat) : (256 : Nat) ^ m = 2 ^ (8 * m) := by
  rw [show (256 : Nat) = 2 ^ 8 from rfl, ← pow_mul]

/-- C4: `from_repr` accepts exactly the integers below the modulus (entering
Montgomery form), and `FromBytes::read` rejects any full-width encoding
whose integer value is at least the modulus. -/
theorem C4_from_repr_accepts_below_M (P : FpParams) (hP : wellFormed P) :
    (∀ r : List Nat, wfLimbs r → r.length = P.nlimbs →
      (bigVal r < M P → ∃ f, from_repr P r = some f ∧ good P f ∧
          bigVal f.limbs = bigVal r * bigVal P.R % M P) ∧
      (M P ≤ bigVal r → from_repr P r = none)) ∧
    (∀ bs : List Nat, wfBytes bs → bs.length = 8 * P.nlimbs →
      M P ≤ bytesVal bs → fpRead P bs = .error ()) := by
  refine ⟨fun r hw hlen => from_repr_spec hP r hw hlen, ?_⟩
  intro bs hwb hblen hge
  obtain ⟨hl1, hl2, hl3⟩ := bytesToLimbs_spec P.nlimbs bs hwb (by omega)
  have htake : bs.take (8 * P.nlimbs) = bs := by
    rw [← hblen]; exact List.take_length bs
  rw [htake] at hl3
  obtain ⟨-, hnone⟩ := from_repr_spec hP _ hl2 hl1
  have hres := hnone (by rw [hl3]; exact hge)
  unfold fpRead
  rw [if_neg (by omega), hres]

/-- C6: a flag type wider than the spare bits makes `serialize_with_flags`
fail with the not-enough-space error; the check precedes every write, so the
error case produces no output bytes at all. -/
theorem C6_serialize_rejects_wide_flags (P : FpParams) (a : Fp)
    (flagLen flagVal : Nat)
    (h : 8 * buffer_byte_size P.MODULUS_BITS - P.MODULUS_BITS < flagLen) :
    serialize_with_flags P a flagLen flagVal = Except.error () := by
  simp only [serialize_with_flags]
  rw [if_pos h]

/-- C5: serialization round-trips with flags, for every flag set fitting the
reserved high bits. -/
theorem C5_serialize_round_trip (P : FpParams) (hP : wellFormed P) (a : Fp)
    (ha : good P a) (flagLen flagVal : Nat) (hfl8 : flagLen ≤ 8)
    (hfit : flagLen ≤ 8 * buffer_byte_size P.MODULUS_BITS - P.MODULUS_BITS)
    (hfv : flagVal < 2 ^ flagLen) :
    ∃ out, serialize_with_flags P a flagLen flagVal = Except.ok out ∧
      deserialize_with_flags P out flagLen = Except.ok (a, flagVal) := by
  have hP' := hP
  obtain ⟨hL, hml, hmw, hRlen, hRw, hR2len, hR2w, hModd, hM1, hM2, hRval, hR2val,
    hIlt, hinv, hbp, hblo, hbhi, hbmin, hshave⟩ := hP'
  obtain ⟨hilen, hiw, hilt, -⟩ := into_repr_spec hP ha
  -- abbreviations
  have hobs_def : buffer_byte_size P.MODULUS_BITS = (P.MODULUS_BITS + 7) / 8 := rfl
  have hobs1 : 1 ≤ buffer_byte_size P.MODULUS_BITS := by rw [hobs_def]; omega
  have hble : P.MODULUS_BITS ≤ 8 * buffer_byte_size P.MODULUS_BITS := by
    rw [hobs_def]; omega
  have hWL : W ^ P.nlimbs = 2 ^ (64 * P.nlimbs) := by
    rw [show W = 2 ^ 64 from rfl, ← pow_mul]
  have hbitsL : P.MODULUS_BITS ≤ 64 * P.nlimbs - 1 := by
    have h1 : 2 ^ (P.MODULUS_BITS - 1) < 2 ^ (64 * P.nlimbs - 1) := by
      have h2 : 2 * M P < 2 ^ (64 * P.nlimbs) := by rw [← hWL]; exact hM2
      have h3 : (2 : Nat) ^ (64 * P.nlimbs) = 2 * 2 ^ (64 * P.nlimbs - 1) := by
        rw [← pow_succ']
        congr 1
        omega
      omega
    have h4 : (1 : Nat) < 2 := by omega
    have := (Nat.pow_lt_pow_iff_right h4).mp h1
    omega
  have hobsL : buffer_byte_size P.MODULUS_BITS ≤ 8 * P.nlimbs := by
    rw [hobs_def]; omega
  -- the logical value and its bytes
  have hvlt : bigVal (into_repr P a) < 2 ^ P.MODULUS_BITS := lt_trans hilt hbhi
  have hbytes : fpWrite P a = natToBytes (8 * P.nlimbs) (bigVal (into_repr P a)) := by
    unfold fpWrite
    rw [limbsToBytes_eq _ hiw, hilen]
  have hsplitlen : 8 * P.nlimbs
      = buffer_byte_size P.MODULUS_BITS + (8 * P.nlimbs - buffer_byte_size P.MODULUS_BITS) := by
    omega
  have hvobs : bigVal (into_repr P a) < 256 ^ buffer_byte_size P.MODULUS_BITS := by
    rw [pow256_eq]
    exact lt_of_lt_of_le hvlt (Nat.pow_le_pow_right (by omega) (by omega))
  have hsplit : natToBytes (8 * P.nlimbs) (bigVal (into_repr P a))
      = natToBytes (buffer_byte_size P.MODULUS_BITS) (bigVal (into_repr P a))
        ++ List.replicate (8 * P.nlimbs - buffer_byte_size P.MODULUS_BITS) 0 := by
    rw [hsplitlen, natToBytes_split, Nat.div_eq_of_lt hvobs, natToBytes_zero]
    have hcount : buffer_byte_size P.MODULUS_BITS
        + (8 * P.nlimbs - buffer_byte_size P.MODULUS_BITS)
        - buffer_byte_size P.MODULUS_BITS
        = 8 * P.nlimbs - buffer_byte_size P.MODULUS_BITS := by omega
    rw [hcount]
  -- the top byte of the value
  have hdraw : (natToBytes (8 * P.nlimbs) (bigVal (into_repr P a))).getD
      (buffer_byte_size P.MODULUS_BITS - 1) 0
      = bigVal (into_repr P a) / 256 ^ (buffer_byte_size P.MODULUS_BITS - 1) % 256 :=
    natToBytes_getD _ _ _ (by omega)
  have hdlt : bigVal (into_repr P a) / 256 ^ (buffer_byte_size P.MODULUS_BITS - 1)
      < 2 ^ (8 - flagLen) := by
    have h1 : bigVal (into_repr P a)
        < 2 ^ (8 * buffer_byte_size P.MODULUS_BITS - flagLen) :=
      lt_of_lt_of_le hvlt (Nat.pow_le_pow_right (by omega) (by omega))
    have h2 : (2 : Nat) ^ (8 * buffer_byte_size P.MODULUS_BITS - flagLen)
        = 256 ^ (buffer_byte_size P.MODULUS_BITS - 1) * 2 ^ (8 - flagLen) := by
      rw [pow256_eq, ← pow_add]
      congr 1
      omega
    exact Nat.div_lt_of_lt_mul (h2 ▸ h1)
  have hd256 : bigVal (into_repr P a) / 256 ^ (buffer_byte_size P.MODULUS_BITS - 1) % 256
      = bigVal (into_repr P a) / 256 ^ (buffer_byte_size P.MODULUS_BITS - 1) := by
    have : (2 : Nat) ^ (8 - flagLen) ≤ 256 := by
      calc (2 : Nat) ^ (8 - flagLen) ≤ 2 ^ 8 := Nat.pow_le_pow_right (by omega) (by omega)
        _ = 256 := by norm_num
    exact Nat.mod_eq_of_lt (by omega)
  have hor : bigVal (into_repr P a) / 256 ^ (buffer_byte_size P.MODULUS_BITS - 1)
        ||| 2 ^ (8 - flagLen) * flagVal
      = 2 ^ (8 - flagLen) * flagVal
        + bigVal (into_repr P a) / 256 ^ (buffer_byte_size P.MODULUS_BITS - 1) :=
    lor_mul_pow hdlt
  -- the serialized output
  have hlen_obs : (natToBytes (buffer_byte_size P.MODULUS_BITS)
      (bigVal (into_repr P a))).length = buffer_byte_size P.MODULUS_BITS :=
    natToBytes_length _ _
  have hser : serialize_with_flags P a flagLen flagVal
      = Except.ok ((natToBytes (buffer_byte_size P.MODULUS_BITS)
          (bigVal (into_repr P a))).set (buffer_byte_size P.MODULUS_BITS - 1)
          (2 ^ (8 - flagLen) * flagVal
            + bigVal (into_repr P a) / 256 ^ (buffer_byte_size P.MODULUS_BITS - 1))) := by
    simp only [serialize_with_flags]
    rw [if_neg (by omega)]
    congr 1
    rw [hbytes, hsplit]
    rw [getD_append_left _ _ _ (by omega)]
    rw [natToBytes_getD _ _ _ (by omega), hd256, hor]
    rw [List.set_append_left _ _ (by omega)]
    exact List.take_left' (by rw [List.length_set, hlen_obs])
  refine ⟨_, hser, ?_⟩
  -- deserialization
  have hout_len : ((natToBytes (buffer_byte_size P.MODULUS_BITS)
      (bigVal (into_repr P a))).set (buffer_byte_size P.MODULUS_BITS - 1)
      (2 ^ (8 - flagLen) * flagVal
        + bigVal (into_repr P a) / 256 ^ (buffer_byte_size P.MODULUS_BITS - 1))).length
      = buffer_byte_size P.MODULUS_BITS := by
    rw [List.length_set, hlen_obs]
  simp only [deserialize_with_flags]
  rw [if_neg (by omega), if_neg (by omega)]
  have htakeout : ((natToBytes (buffer_byte_size P.MODULUS_BITS)
      (bigVal (into_repr P a))).set (buffer_byte_size P.MODULUS_BITS - 1)
      (2 ^ (8 - flagLen) * flagVal
        + bigVal (into_repr P a) / 256 ^ (buffer_byte_size P.MODULUS_BITS - 1))).take
        (buffer_byte_size P.MODULUS_BITS)
      = (natToBytes (buffer_byte_size P.MODULUS_BITS)
          (bigVal (into_repr P a))).set (buffer_byte_size P.MODULUS_BITS - 1)
          (2 ^ (8 - flagLen) * flagVal
            + bigVal (into_repr P a) / 256 ^ (buffer_byte_size P.MODULUS_BITS - 1)) :=
    List.take_of_length_le (by rw [hout_len])
  rw [htakeout]
  rw [getD_append_left _ _ _ (by rw [hout_len]; omega)]
  rw [getD_set_self _ _ _ (by rw [hlen_obs]; omega)]
  have hflags : (2 ^ (8 - flagLen) * flagVal
      + bigVal (into_repr P a) / 256 ^ (buffer_byte_size P.MODULUS_BITS - 1))
        / 2 ^ (8 - flagLen) = flagVal := by
    rw [Nat.mul_add_div (Nat.pos_pow_of_pos _ (by omega))]
    rw [Nat.div_eq_of_lt hdlt]
    omega
  have hrem : (2 ^ (8 - flagLen) * flagVal
      + bigVal (into_repr P a) / 256 ^ (buffer_byte_size P.MODULUS_BITS - 1))
        % 2 ^ (8 - flagLen)
      = bigVal (into_repr P a) / 256 ^ (buffer_byte_size P.MODULUS_BITS - 1) := by
    rw [Nat.mul_add_mod]
    exact Nat.mod_eq_of_lt hdlt
  rw [hflags, hrem]
  rw [List.set_append_left _ _ (by rw [hout_len]; omega)]
  rw [List.set_set]
  have hunset : (natToBytes (buffer_byte_size P.MODULUS_BITS)
      (bigVal (into_repr P a))).set (buffer_byte_size P.MODULUS_BITS - 1)
      (bigVal (into_repr P a) / 256 ^ (buffer_byte_size P.MODULUS_BITS - 1))
      = natToBytes (buffer_byte_size P.MODULUS_BITS) (bigVal (into_repr P a)) := by
    have hgd := natToBytes_getD (buffer_byte_size P.MODULUS_BITS)
      (bigVal (into_repr P a)) (buffer_byte_size P.MODULUS_BITS - 1) (by omega)
    rw [hd256] at hgd
    rw [← hgd]
    exact set_getD_self _ _ (by rw [hlen_obs]; omega)
  rw [hunset, ← hsplit]
  -- reading back
  have hwb : wfBytes (natToBytes (8 * P.nlimbs) (bigVal (into_repr P a))) :=
    natToBytes_wf _ _
  obtain ⟨hl1, hl2, hl3⟩ := bytesToLimbs_spec P.nlimbs
    (natToBytes (8 * P.nlimbs) (bigVal (into_repr P a))) hwb
    (by rw [natToBytes_length])
  have hvW : bigVal (into_repr P a) < 256 ^ (8 * P.nlimbs) := by
    calc bigVal (into_repr P a) < 256 ^ buffer_byte_size P.MODULUS_BITS := hvobs
      _ ≤ 256 ^ (8 * P.nlimbs) := Nat.pow_le_pow_right (by omega) hobsL
  have hl3' : bigVal (bytesToLimbs P.nlimbs
      (natToBytes (8 * P.nlimbs) (bigVal (into_repr P a)))) = bigVal (into_repr P a) := by
    rw [hl3, List.take_of_length_le (by rw [natToBytes_length]),
      bytesVal_natToBytes_of_lt hvW]
  have hlimbs_eq : bytesToLimbs P.nlimbs
      (natToBytes (8 * P.nlimbs) (bigVal (into_repr P a))) = into_repr P a :=
    bigVal_inj hl2 hiw (by rw [hl1, hilen]) (by rw [hl3'])
  unfold fpRead
  rw [if_neg (by rw [natToBytes_length]; omega)]
  rw [hlimbs_eq, from_repr_into_repr hP ha]

theorem oddPart_zero : oddPart 0 = 0 := by simp [oddPart]

theorem oddPart_le (n : Nat) : oddPart n ≤ n := Nat.div_le_self _ _

theorem oddPart_pos {n : Nat} (h : 0 < n) : 0 < oddPart n := by
  have := Nat.ordCompl_pos 2 (Nat.pos_iff_ne_zero.mp h)
  simpa [oddPart] using this

theorem oddPart_eq_of_odd_mul_pow (j : Nat) {m : Nat} (hm : ¬ (m % 2 = 0)) :
    oddPart (2 ^ j * m) = m := by
  have hm0 : m ≠ 0 := by omega
  have hnd : ¬ (2 : Nat) ∣ m := by omega
  have hfm : m.factorization 2 = 0 := Nat.factorization_eq_zero_of_not_dvd hnd
  have hfp : ((2 : Nat) ^ j).factorization 2 = j := by
    rw [Nat.Prime.factorization_pow Nat.prime_two]
    simp
  have hfac : ((2 : Nat) ^ j * m).factorization 2 = j := by
    rw [Nat.factorization_mul (by positivity) hm0]
    simp [Finsupp.add_apply, hfm, Nat.Prime.factorization_self Nat.prime_two]
  unfold oddPart
  rw [hfac, Nat.mul_div_cancel_left _ (by positivity)]

theorem oddPart_le_half_of_even {n : Nat} (h0 : n ≠ 0) (he : n % 2 = 0) :
    oddPart n ≤ n / 2 := by
  have h2 : 1 ≤ n.factorization 2 := by
    rw [← Nat.Prime.pow_dvd_iff_le_factorization Nat.prime_two h0]
    simpa using Nat.dvd_of_mod_eq_zero he
  have h22 : (2 : Nat) ≤ 2 ^ n.factorization 2 := by
    calc (2 : Nat) = 2 ^ 1 := rfl
      _ ≤ 2 ^ n.factorization 2 := Nat.pow_le_pow_right (by omega) h2
  unfold oddPart
  exact Nat.div_le_div_left h22 (by omega)

theorem is_even_iff' {xs : List Nat} (h : 0 < xs.length) :
    (is_even xs = true ↔ bigVal xs % 2 = 0) := by
  cases xs with
  | nil => simp at h
  | cons x rest => exact is_even_iff x rest

/-- The inner halving loop fully reduces a nonzero value to its odd part,
scaling the accumulator consistently. -/
theorem halveLoopF_spec {P : FpParams} (hP : wellFormed P) :
    ∀ (f : Nat) (x : List Nat) (e : Fp), wfLimbs x → x.length = P.nlimbs →
    good P e → 0 < bigVal x → bigVal x < 2 ^ f →
    ∃ j, wfLimbs (halveLoopF P f x e).1 ∧ (halveLoopF P f x e).1.length = P.nlimbs ∧
      ¬ (bigVal (halveLoopF P f x e).1 % 2 = 0) ∧
      bigVal (halveLoopF P f x e).1 * 2 ^ j = bigVal x ∧
      good P (halveLoopF P f x e).2 ∧
      2 ^ j * bigVal (halveLoopF P f x e).2.limbs ≡ bigVal e.limbs [MOD M P]
  | 0, x, e, _, _, _, hpos, hlt => by
    simp only [pow_zero] at hlt
    omega
  | f + 1, x, e, hw, hlen, hge, hpos, hlt => by
    have hP' := hP
    obtain ⟨hL, hml, hmw, -, -, -, -, hModd, hM1, hM2, -⟩ := hP'
    have hMe : bigVal P.MODULUS = M P := rfl
    by_cases hev : is_even x = true
    · have hevv : bigVal x % 2 = 0 := (is_even_iff' (by omega)).mp hev
      -- one halving step
      have hgb : good P (halveB P e) ∧
          2 * bigVal (halveB P e).limbs ≡ bigVal e.limbs [MOD M P] := by
        obtain ⟨helen, hew, heM⟩ := hge
        unfold halveB
        by_cases hee : is_even e.limbs = true
        · rw [if_pos hee]
          have heev : bigVal e.limbs % 2 = 0 := (is_even_iff' (by omega)).mp hee
          refine ⟨⟨?_, div2_wf _ hew, ?_⟩, ?_⟩
          · simp only [Fp_limbs_mk, div2_length, helen]
          · simp only [Fp_limbs_mk, div2_val]; omega
          · simp only [Fp_limbs_mk, div2_val]
            have : 2 * (bigVal e.limbs / 2) = bigVal e.limbs := by omega
            rw [this]
        · rw [if_neg hee]
          have heev : ¬ (bigVal e.limbs % 2 = 0) := fun h =>
            hee ((is_even_iff' (by omega)).mpr h)
          have haddv := add_nocarry_val e.limbs P.MODULUS 0 hew hmw (by omega)
            (by omega) (by rw [helen]; omega)
          rw [hMe] at haddv
          refine ⟨⟨?_, div2_wf _ (add_nocarry_wf _ _ _), ?_⟩, ?_⟩
          · simp only [Fp_limbs_mk, div2_length, add_nocarry_length, helen, hml]
            simp
          · simp only [Fp_limbs_mk, div2_val, haddv]; omega
          · simp only [Fp_limbs_mk, div2_val, haddv]
            have h2 : 2 * ((bigVal e.limbs + M P + 0) / 2)
                = bigVal e.limbs + M P := by omega
            rw [h2]
            calc bigVal e.limbs + M P + 0
                = bigVal e.limbs + M P := by omega
              _ ≡ bigVal e.limbs [MOD M P] := Nat.add_modEq_right
      obtain ⟨hgb1, hgb2⟩ := hgb
      have hd2 : bigVal (div2 x) = bigVal x / 2 := div2_val x
      have hrec := halveLoopF_spec hP f (div2 x) (halveB P e)
        (div2_wf x hw) (by rw [div2_length, hlen]) hgb1
        (by rw [hd2]; omega) (by rw [hd2, pow_succ] at *; omega)
      obtain ⟨j, h1, h2, h3, h4, h5, h6⟩ := hrec
      have hstep : halveLoopF P (f + 1) x e = halveLoopF P f (div2 x) (halveB P e) := by
        simp [halveLoopF, hev]
      rw [hstep]
      refine ⟨j + 1, h1, h2, h3, ?_, h5, ?_⟩
      · rw [pow_succ]
        have : bigVal (halveLoopF P f (div2 x) (halveB P e)).1 * (2 ^ j * 2)
            = bigVal (halveLoopF P f (div2 x) (halveB P e)).1 * 2 ^ j * 2 := by ring
        rw [this, h4, hd2]
        omega
      · calc 2 ^ (j + 1) * bigVal (halveLoopF P f (div2 x) (halveB P e)).2.limbs
            = 2 * (2 ^ j * bigVal (halveLoopF P f (div2 x) (halveB P e)).2.limbs) := by
              ring
          _ ≡ 2 * bigVal (halveB P e).limbs [MOD M P] := h6.mul_left 2
          _ ≡ bigVal e.limbs [MOD M P] := hgb2
    · have hstep : halveLoopF P (f + 1) x e = (x, e) := by
        simp [halveLoopF, hev]
      rw [hstep]
      refine ⟨0, hw, hlen, ?_, by rw [pow_zero, Nat.mul_one], hge, by rw [pow_zero, Nat.one_mul]⟩
      intro h
      exact hev ((is_even_iff' (by omega)).mpr h)

theorem oddPart_of_odd {m : Nat} (hm : ¬ (m % 2 = 0)) : oddPart m = m := by
  have := oddPart_eq_of_odd_mul_pow 0 hm
  simpa using this

theorem oneLimbs_val {P : FpParams} (hP : wellFormed P) : bigVal (oneLimbs P) = 1 := by
  obtain ⟨hL, -, -, -, -, -, -, -, hM1, hM2, -⟩ := hP
  exact natToLimbs_val_of_lt (by omega)

theorem eq_oneLimbs_iff {P : FpParams} (hP : wellFormed P) {u : List Nat}
    (hw : wfLimbs u) (hlen : u.length = P.nlimbs) :
    u = oneLimbs P ↔ bigVal u = 1 := by
  constructor
  · intro h; rw [h, oneLimbs_val hP]
  · intro h
    exact bigVal_inj hw (natToLimbs_wf _ _)
      (by simp [oneLimbs, natToLimbs_length, hlen])
      (by rw [h, oneLimbs_val hP])

theorem two_pow_unit {P : FpParams} (hP : wellFormed P) (j : Nat) :
    IsUnit ((2 : ZMod (M P)) ^ j) := by
  obtain ⟨-, -, -, -, -, -, -, hModd, hM1, -⟩ := hP
  have h2 : IsUnit (((2 : Nat) : ZMod (M P))) := by
    rw [ZMod.isUnit_iff_coprime]
    rw [Nat.coprime_two_left]
    exact Nat.odd_iff.mpr hModd
  rw [show (((2 : Nat) : ZMod (M P))) = (2 : ZMod (M P)) from by push_cast; ring] at h2
  exact h2.pow j

/-- The outer loop of the binary extended Euclid inversion: given the
invariants of section 4.4 and fuel exceeding the binary logarithm of the sum
of the odd parts of `u` and `v`, it yields an accumulator `r` with
`A · r ≡ R² (mod M)` (everything Montgomery-scaled by `ρ = 2^(64L)`). -/
theorem beaLoop_spec {P : FpParams} (hP : wellFormed P) (A : Nat) :
    ∀ (f : Nat) (u v : List Nat) (b c : Fp),
    wfLimbs u → u.length = P.nlimbs → wfLimbs v → v.length = P.nlimbs →
    good P b → good P c → 1 ≤ bigVal u →
    Nat.gcd (bigVal u) (bigVal v) = 1 →
    (A : ZMod (M P)) * (bigVal b.limbs : ZMod (M P))
      = (bigVal u : ZMod (M P)) * ((W ^ P.nlimbs : Nat) : ZMod (M P)) ^ 2 →
    (A : ZMod (M P)) * (bigVal c.limbs : ZMod (M P))
      = (bigVal v : ZMod (M P)) * ((W ^ P.nlimbs : Nat) : ZMod (M P)) ^ 2 →
    oddPart (bigVal u) + oddPart (bigVal v) < 2 ^ f →
    ∃ r, beaLoop P f u v b c = some r ∧ good P r ∧
      (A : ZMod (M P)) * (bigVal r.limbs : ZMod (M P))
        = ((W ^ P.nlimbs : Nat) : ZMod (M P)) ^ 2
  | 0, u, v, b, c, hwu, hul, hwv, hvl, hgb, hgc, hU1, hgcd, hβ, hγ, hsum => by
    have := oddPart_pos (n := bigVal u) (by omega)
    simp only [pow_zero] at hsum
    omega
  | f + 1, u, v, b, c, hwu, hul, hwv, hvl, hgb, hgc, hU1, hgcd, hβ, hγ, hsum => by
    have hP' := hP
    obtain ⟨hL, hml, hmw, -, -, -, -, hModd, hM1, hM2, -⟩ := hP'
    have hMe : bigVal P.MODULUS = M P := rfl
    by_cases hexit : u = oneLimbs P ∨ v = oneLimbs P
    · have hunf : beaLoop P (f + 1) u v b c =
          if u = oneLimbs P then some b else some c := by
        simp only [beaLoop]
        rw [if_pos hexit]
      by_cases hu1 : u = oneLimbs P
      · rw [hunf, if_pos hu1]
        refine ⟨b, rfl, hgb, ?_⟩
        have hv1 : bigVal u = 1 := (eq_oneLimbs_iff hP hwu hul).mp hu1
        rw [hv1] at hβ
        simpa using hβ
      · rw [hunf, if_neg hu1]
        have hv1 : v = oneLimbs P := hexit.resolve_left hu1
        refine ⟨c, rfl, hgc, ?_⟩
        have hvv : bigVal v = 1 := (eq_oneLimbs_iff hP hwv hvl).mp hv1
        rw [hvv] at hγ
        simpa using hγ
    · push_neg at hexit
      obtain ⟨hu1, hv1⟩ := hexit
      have hU2 : 2 ≤ bigVal u := by
        rcases Nat.lt_or_ge (bigVal u) 2 with h | h
        · have h1 : bigVal u = 1 := by omega
          exact absurd ((eq_oneLimbs_iff hP hwu hul).mpr h1) hu1
        · exact h
      have hV2 : 2 ≤ bigVal v := by
        rcases Nat.lt_or_ge (bigVal v) 2 with h | h
        · rcases Nat.lt_or_ge (bigVal v) 1 with h0 | h0
          · have hz : bigVal v = 0 := by omega
            rw [hz, Nat.gcd_zero_right] at hgcd; omega
          · have h1 : bigVal v = 1 := by omega
            exact absurd ((eq_oneLimbs_iff hP hwv hvl).mpr h1) hv1
        · exact h
      have hWL2 : W ^ P.nlimbs = 2 ^ (64 * P.nlimbs) := by
        rw [show W = 2 ^ 64 from rfl, ← pow_mul]
      have hubound : bigVal u < 2 ^ (64 * P.nlimbs) := by
        rw [← hWL2, ← hul]; exact bigVal_lt hwu
      have hvbound : bigVal v < 2 ^ (64 * P.nlimbs) := by
        rw [← hWL2, ← hvl]; exact bigVal_lt hwv
      obtain ⟨j₁, hpw, hplen, hpodd, hpval, hgb', hbcong⟩ :=
        halveLoopF_spec hP (64 * P.nlimbs) u b hwu hul hgb (by omega) hubound
      obtain ⟨j₂, hqw, hqlen, hqodd, hqval, hgc', hccong⟩ :=
        halveLoopF_spec hP (64 * P.nlimbs) v c hwv hvl hgc (by omega) hvbound
      have hstep : beaLoop P (f + 1) u v b c =
          (if ltBig (halveLoopF P (64 * P.nlimbs) v c).1
              (halveLoopF P (64 * P.nlimbs) u b).1 then
            beaLoop P f
              (sub_noborrow (halveLoopF P (64 * P.nlimbs) u b).1
                (halveLoopF P (64 * P.nlimbs) v c).1 0)
              (halveLoopF P (64 * P.nlimbs) v c).1
              (sub_assign P (halveLoopF P (64 * P.nlimbs) u b).2
                (halveLoopF P (64 * P.nlimbs) v c).2)
              (halveLoopF P (64 * P.nlimbs) v c).2
          else
            beaLoop P f (halveLoopF P (64 * P.nlimbs) u b).1
              (sub_noborrow (halveLoopF P (64 * P.nlimbs) v c).1
                (halveLoopF P (64 * P.nlimbs) u b).1 0)
              (halveLoopF P (64 * P.nlimbs) u b).2
              (sub_assign P (halveLoopF P (64 * P.nlimbs) v c).2
                (halveLoopF P (64 * P.nlimbs) u b).2)) := by
        simp only [beaLoop]
        rw [if_neg (by push_neg; exact ⟨hu1, hv1⟩)]
      -- scaled invariants after the halvings
      have hUpos' : 0 < bigVal (halveLoopF P (64 * P.nlimbs) u b).1 := by
        rcases Nat.eq_zero_or_pos (bigVal (halveLoopF P (64 * P.nlimbs) u b).1) with h | h
        · rw [h] at hpval; simp at hpval; omega
        · exact h
      have hVpos' : 0 < bigVal (halveLoopF P (64 * P.nlimbs) v c).1 := by
        rcases Nat.eq_zero_or_pos (bigVal (halveLoopF P (64 * P.nlimbs) v c).1) with h | h
        · rw [h] at hqval; simp at hqval; omega
        · exact h
      have hβ' : (A : ZMod (M P)) * (bigVal (halveLoopF P (64 * P.nlimbs) u b).2.limbs : ZMod (M P))
          = (bigVal (halveLoopF P (64 * P.nlimbs) u b).1 : ZMod (M P))
            * ((W ^ P.nlimbs : Nat) : ZMod (M P)) ^ 2 := by
        have hc1 : ((2 : ZMod (M P)) ^ j₁)
              * ((A : ZMod (M P)) * (bigVal (halveLoopF P (64 * P.nlimbs) u b).2.limbs : ZMod (M P)))
            = ((2 : ZMod (M P)) ^ j₁)
              * ((bigVal (halveLoopF P (64 * P.nlimbs) u b).1 : ZMod (M P))
                * ((W ^ P.nlimbs : Nat) : ZMod (M P)) ^ 2) := by
          have e1 : ((2 ^ j₁ * bigVal (halveLoopF P (64 * P.nlimbs) u b).2.limbs : Nat) : ZMod (M P))
              = ((bigVal b.limbs : Nat) : ZMod (M P)) :=
            (ZMod.natCast_eq_natCast_iff _ _ _).mpr hbcong
          have e2 : ((bigVal (halveLoopF P (64 * P.nlimbs) u b).1 * 2 ^ j₁ : Nat) : ZMod (M P))
              = ((bigVal u : Nat) : ZMod (M P)) := by rw [hpval]
          push_cast at e1 e2
          calc (2 : ZMod (M P)) ^ j₁
                * ((A : ZMod (M P)) * (bigVal (halveLoopF P (64 * P.nlimbs) u b).2.limbs : ZMod (M P)))
              = (A : ZMod (M P)) * ((2 : ZMod (M P)) ^ j₁
                  * (bigVal (halveLoopF P (64 * P.nlimbs) u b).2.limbs : ZMod (M P))) := by ring
            _ = (A : ZMod (M P)) * (bigVal b.limbs : ZMod (M P)) := by rw [e1]
            _ = (bigVal u : ZMod (M P)) * ((W ^ P.nlimbs : Nat) : ZMod (M P)) ^ 2 := hβ
            _ = ((bigVal (halveLoopF P (64 * P.nlimbs) u b).1 : ZMod (M P)) * (2 : ZMod (M P)) ^ j₁)
                  * ((W ^ P.nlimbs : Nat) : ZMod (M P)) ^ 2 := by rw [← e2]
            _ = (2 : ZMod (M P)) ^ j₁
                  * ((bigVal (halveLoopF P (64 * P.nlimbs) u b).1 : ZMod (M P))
                    * ((W ^ P.nlimbs : Nat) : ZMod (M P)) ^ 2) := by ring
        exact (two_pow_unit hP j₁).mul_left_cancel hc1
      have hγ' : (A : ZMod (M P)) * (bigVal (halveLoopF P (64 * P.nlimbs) v c).2.limbs : ZMod (M P))
          = (bigVal (halveLoopF P (64 * P.nlimbs) v c).1 : ZMod (M P))
            * ((W ^ P.nlimbs : Nat) : ZMod (M P)) ^ 2 := by
        have hc1 : ((2 : ZMod (M P)) ^ j₂)
              * ((A : ZMod (M P)) * (bigVal (halveLoopF P (64 * P.nlimbs) v c).2.limbs : ZMod (M P)))
            = ((2 : ZMod (M P)) ^ j₂)
              * ((bigVal (halveLoopF P (64 * P.nlimbs) v c).1 : ZMod (M P))
                * ((W ^ P.nlimbs : Nat) : ZMod (M P)) ^ 2) := by
          have e1 : ((2 ^ j₂ * bigVal (halveLoopF P (64 * P.nlimbs) v c).2.limbs : Nat) : ZMod (M P))
              = ((bigVal c.limbs : Nat) : ZMod (M P)) :=
            (ZMod.natCast_eq_natCast_iff _ _ _).mpr hccong
          have e2 : ((bigVal (halveLoopF P (64 * P.nlimbs) v c).1 * 2 ^ j₂ : Nat) : ZMod (M P))
              = ((bigVal v : Nat) : ZMod (M P)) := by rw [hqval]
          push_cast at e1 e2
          calc (2 : ZMod (M P)) ^ j₂
                * ((A : ZMod (M P)) * (bigVal (halveLoopF P (64 * P.nlimbs) v c).2.limbs : ZMod (M P)))
              = (A : ZMod (M P)) * ((2 : ZMod (M P)) ^ j₂
                  * (bigVal (halveLoopF P (64 * P.nlimbs) v c).2.limbs : ZMod (M P))) := by ring
            _ = (A : ZMod (M P)) * (bigVal c.limbs : ZMod (M P)) := by rw [e1]
            _ = (bigVal v : ZMod (M P)) * ((W ^ P.nlimbs : Nat) : ZMod (M P)) ^ 2 := hγ
            _ = ((bigVal (halveLoopF P (64 * P.nlimbs) v c).1 : ZMod (M P)) * (2 : ZMod (M P)) ^ j₂)
                  * ((W ^ P.nlimbs : Nat) : ZMod (M P)) ^ 2 := by rw [← e2]
            _ = (2 : ZMod (M P)) ^ j₂
                  * ((bigVal (halveLoopF P (64 * P.nlimbs) v c).1 : ZMod (M P))
                    * ((W ^ P.nlimbs : Nat) : ZMod (M P)) ^ 2) := by ring
        exact (two_pow_unit hP j₂).mul_left_cancel hc1
      -- gcd and odd parts after the halvings
      have hgcd' : Nat.gcd (bigVal (halveLoopF P (64 * P.nlimbs) u b).1)
          (bigVal (halveLoopF P (64 * P.nlimbs) v c).1) = 1 := by
        have hdu : bigVal (halveLoopF P (64 * P.nlimbs) u b).1 ∣ bigVal u :=
          ⟨2 ^ j₁, hpval.symm⟩
        have hdv : bigVal (halveLoopF P (64 * P.nlimbs) v c).1 ∣ bigVal v :=
          ⟨2 ^ j₂, hqval.symm⟩
        exact Nat.Coprime.coprime_dvd_right hdv (Nat.Coprime.coprime_dvd_left hdu hgcd)
      have hopu : oddPart (bigVal u) = bigVal (halveLoopF P (64 * P.nlimbs) u b).1 := by
        rw [← hpval, Nat.mul_comm]
        exact oddPart_eq_of_odd_mul_pow j₁ hpodd
      have hopv : oddPart (bigVal v) = bigVal (halveLoopF P (64 * P.nlimbs) v c).1 := by
        rw [← hqval, Nat.mul_comm]
        exact oddPart_eq_of_odd_mul_pow j₂ hqodd
      rw [hopu, hopv] at hsum
      by_cases hcmp : ltBig (halveLoopF P (64 * P.nlimbs) v c).1
          (halveLoopF P (64 * P.nlimbs) u b).1 = true
      · -- v' < u' : u ← u' − v', b ← b' − c'
        have hlt : bigVal (halveLoopF P (64 * P.nlimbs) v c).1
            < bigVal (halveLoopF P (64 * P.nlimbs) u b).1 :=
          (ltBig_iff hqw hpw (by omega)).mp hcmp
        have hsubv := sub_noborrow_val (halveLoopF P (64 * P.nlimbs) u b).1
          (halveLoopF P (64 * P.nlimbs) v c).1 0 hpw hqw (by omega) (by omega) (by omega)
        obtain ⟨hgs, hscong⟩ := sub_assign_spec hP hgb' hgc'
        have hnewval : bigVal (sub_noborrow (halveLoopF P (64 * P.nlimbs) u b).1
            (halveLoopF P (64 * P.nlimbs) v c).1 0)
            = bigVal (halveLoopF P (64 * P.nlimbs) u b).1
              - bigVal (halveLoopF P (64 * P.nlimbs) v c).1 := by omega
        have hβ'' : (A : ZMod (M P)) * (bigVal (sub_assign P
              (halveLoopF P (64 * P.nlimbs) u b).2
              (halveLoopF P (64 * P.nlimbs) v c).2).limbs : ZMod (M P))
            = ((bigVal (sub_noborrow (halveLoopF P (64 * P.nlimbs) u b).1
                (halveLoopF P (64 * P.nlimbs) v c).1 0) : Nat) : ZMod (M P))
              * ((W ^ P.nlimbs : Nat) : ZMod (M P)) ^ 2 := by
          have e1 : ((bigVal (sub_assign P (halveLoopF P (64 * P.nlimbs) u b).2
                (halveLoopF P (64 * P.nlimbs) v c).2).limbs
                + bigVal (halveLoopF P (64 * P.nlimbs) v c).2.limbs : Nat) : ZMod (M P))
              = ((bigVal (halveLoopF P (64 * P.nlimbs) u b).2.limbs : Nat) : ZMod (M P)) :=
            (ZMod.natCast_eq_natCast_iff _ _ _).mpr hscong
          push_cast at e1
          have e2 : (bigVal (sub_assign P (halveLoopF P (64 * P.nlimbs) u b).2
                (halveLoopF P (64 * P.nlimbs) v c).2).limbs : ZMod (M P))
              = (bigVal (halveLoopF P (64 * P.nlimbs) u b).2.limbs : ZMod (M P))
                - (bigVal (halveLoopF P (64 * P.nlimbs) v c).2.limbs : ZMod (M P)) := by
            rw [← e1]; ring
          rw [hnewval, Nat.cast_sub (by omega), e2]
          calc (A : ZMod (M P)) * ((bigVal (halveLoopF P (64 * P.nlimbs) u b).2.limbs : ZMod (M P))
                - (bigVal (halveLoopF P (64 * P.nlimbs) v c).2.limbs : ZMod (M P)))
              = (A : ZMod (M P)) * (bigVal (halveLoopF P (64 * P.nlimbs) u b).2.limbs : ZMod (M P))
                - (A : ZMod (M P)) * (bigVal (halveLoopF P (64 * P.nlimbs) v c).2.limbs : ZMod (M P)) := by
                ring
            _ = ((bigVal (halveLoopF P (64 * P.nlimbs) u b).1 : ZMod (M P))
                  - (bigVal (halveLoopF P (64 * P.nlimbs) v c).1 : ZMod (M P)))
                  * ((W ^ P.nlimbs : Nat) : ZMod (M P)) ^ 2 := by rw [hβ', hγ']; ring
        have hgcd'' : Nat.gcd (bigVal (sub_noborrow (halveLoopF P (64 * P.nlimbs) u b).1
              (halveLoopF P (64 * P.nlimbs) v c).1 0))
            (bigVal (halveLoopF P (64 * P.nlimbs) v c).1) = 1 := by
          rw [hnewval, Nat.gcd_sub_self_left (by omega)]
          exact hgcd'
        have hsum'' : oddPart (bigVal (sub_noborrow (halveLoopF P (64 * P.nlimbs) u b).1
              (halveLoopF P (64 * P.nlimbs) v c).1 0))
            + oddPart (bigVal (halveLoopF P (64 * P.nlimbs) v c).1) < 2 ^ f := by
          rw [hnewval]
          have hoddv' : oddPart (bigVal (halveLoopF P (64 * P.nlimbs) v c).1)
              = bigVal (halveLoopF P (64 * P.nlimbs) v c).1 := oddPart_of_odd hqodd
          rcases Nat.eq_zero_or_pos (bigVal (halveLoopF P (64 * P.nlimbs) u b).1
              - bigVal (halveLoopF P (64 * P.nlimbs) v c).1) with h0 | h0
          · omega
          · have hev : (bigVal (halveLoopF P (64 * P.nlimbs) u b).1
                - bigVal (halveLoopF P (64 * P.nlimbs) v c).1) % 2 = 0 := by omega
            have := oddPart_le_half_of_even (by omega) hev
            have hpow : (2 : Nat) ^ (f + 1) = 2 * 2 ^ f := by rw [pow_succ]; ring
            omega
        obtain ⟨r, hr1, hr2, hr3⟩ := beaLoop_spec hP A f
          (sub_noborrow (halveLoopF P (64 * P.nlimbs) u b).1
            (halveLoopF P (64 * P.nlimbs) v c).1 0)
          (halveLoopF P (64 * P.nlimbs) v c).1
          (sub_assign P (halveLoopF P (64 * P.nlimbs) u b).2
            (halveLoopF P (64 * P.nlimbs) v c).2)
          (halveLoopF P (64 * P.nlimbs) v c).2
          (sub_noborrow_wf _ _ _)
          (by rw [sub_noborrow_length, hplen, hqlen]; simp)
          hqw hqlen hgs hgc' (by omega) hgcd'' hβ'' hγ' hsum''
        refine ⟨r, ?_, hr2, hr3⟩
        rw [hstep, if_pos hcmp]
        exact hr1
      · -- u' ≤ v' : v ← v' − u', c ← c' − b'
        have hge : bigVal (halveLoopF P (64 * P.nlimbs) u b).1
            ≤ bigVal (halveLoopF P (64 * P.nlimbs) v c).1 := by
          rcases Nat.lt_or_ge (bigVal (halveLoopF P (64 * P.nlimbs) v c).1)
            (bigVal (halveLoopF P (64 * P.nlimbs) u b).1) with h | h
          · exact absurd ((ltBig_iff hqw hpw (by omega)).mpr h) hcmp
          · exact h
        have hsubv := sub_noborrow_val (halveLoopF P (64 * P.nlimbs) v c).1
          (halveLoopF P (64 * P.nlimbs) u b).1 0 hqw hpw (by omega) (by omega) (by omega)
        obtain ⟨hgs, hscong⟩ := sub_assign_spec hP hgc' hgb'
        have hnewval : bigVal (sub_noborrow (halveLoopF P (64 * P.nlimbs) v c).1
            (halveLoopF P (64 * P.nlimbs) u b).1 0)
            = bigVal (halveLoopF P (64 * P.nlimbs) v c).1
              - bigVal (halveLoopF P (64 * P.nlimbs) u b).1 := by omega
        have hγ'' : (A : ZMod (M P)) * (bigVal (sub_assign P
              (halveLoopF P (64 * P.nlimbs) v c).2
              (halveLoopF P (64 * P.nlimbs) u b).2).limbs : ZMod (M P))
            = ((bigVal (sub_noborrow (halveLoopF P (64 * P.nlimbs) v c).1
                (halveLoopF P (64 * P.nlimbs) u b).1 0) : Nat) : ZMod (M P))
              * ((W ^ P.nlimbs : Nat) : ZMod (M P)) ^ 2 := by
          have e1 : ((bigVal (sub_assign P (halveLoopF P (64 * P.nlimbs) v c).2
                (halveLoopF P (64 * P.nlimbs) u b).2).limbs
                + bigVal (halveLoopF P (64 * P.nlimbs) u b).2.limbs : Nat) : ZMod (M P))
              = ((bigVal (halveLoopF P (64 * P.nlimbs) v c).2.limbs : Nat) : ZMod (M P)) :=
            (ZMod.natCast_eq_natCast_iff _ _ _).mpr hscong
          push_cast at e1
          have e2 : (bigVal (sub_assign P (halveLoopF P (64 * P.nlimbs) v c).2
                (halveLoopF P (64 * P.nlimbs) u b).2).limbs : ZMod (M P))
              = (bigVal (halveLoopF P (64 * P.nlimbs) v c).2.limbs : ZMod (M P))
                - (bigVal (halveLoopF P (64 * P.nlimbs) u b).2.limbs : ZMod (M P)) := by
            rw [← e1]; ring
          rw [hnewval, Nat.cast_sub (by omega), e2]
          calc (A : ZMod (M P)) * ((bigVal (halveLoopF P (64 * P.nlimbs) v c).2.limbs : ZMod (M P))
                - (bigVal (halveLoopF P (64 * P.nlimbs) u b).2.limbs : ZMod (M P)))
              = (A : ZMod (M P)) * (bigVal (halveLoopF P (64 * P.nlimbs) v c).2.limbs : ZMod (M P))
                - (A : ZMod (M P)) * (bigVal (halveLoopF P (64 * P.nlimbs) u b).2.limbs : ZMod (M P)) := by
                ring
            _ = ((bigVal (halveLoopF P (64 * P.nlimbs) v c).1 : ZMod (M P))
                  - (bigVal (halveLoopF P (64 * P.nlimbs) u b).1 : ZMod (M P)))
                  * ((W ^ P.nlimbs : Nat) : ZMod (M P)) ^ 2 := by rw [hβ', hγ']; ring
        have hgcd'' : Nat.gcd (bigVal (halveLoopF P (64 * P.nlimbs) u b).1)
            (bigVal (sub_noborrow (halveLoopF P (64 * P.nlimbs) v c).1
              (halveLoopF P (64 * P.nlimbs) u b).1 0)) = 1 := by
          rw [hnewval, Nat.gcd_sub_self_right (by omega)]
          exact hgcd'
        have hsum'' : oddPart (bigVal (halveLoopF P (64 * P.nlimbs) u b).1)
            + oddPart (bigVal (sub_noborrow (halveLoopF P (64 * P.nlimbs) v c).1
              (halveLoopF P (64 * P.nlimbs) u b).1 0)) < 2 ^ f := by
          rw [hnewval]
          have hoddu' : oddPart (bigVal (halveLoopF P (64 * P.nlimbs) u b).1)
              = bigVal (halveLoopF P (64 * P.nlimbs) u b).1 := oddPart_of_odd hpodd
          rcases Nat.eq_zero_or_pos (bigVal (halveLoopF P (64 * P.nlimbs) v c).1
              - bigVal (halveLoopF P (64 * P.nlimbs) u b).1) with h0 | h0
          · have hpow : (2 : Nat) ^ (f + 1) = 2 * 2 ^ f := by rw [pow_succ]; ring
            rw [h0, oddPart_zero]
            omega
          · have hev : (bigVal (halveLoopF P (64 * P.nlimbs) v c).1
                - bigVal (halveLoopF P (64 * P.nlimbs) u b).1) % 2 = 0 := by omega
            have := oddPart_le_half_of_even (by omega) hev
            have hpow : (2 : Nat) ^ (f + 1) = 2 * 2 ^ f := by rw [pow_succ]; ring
            omega
        obtain ⟨r, hr1, hr2, hr3⟩ := beaLoop_spec hP A f
          (halveLoopF P (64 * P.nlimbs) u b).1
          (sub_noborrow (halveLoopF P (64 * P.nlimbs) v c).1
            (halveLoopF P (64 * P.nlimbs) u b).1 0)
          (halveLoopF P (64 * P.nlimbs) u b).2
          (sub_assign P (halveLoopF P (64 * P.nlimbs) v c).2
            (halveLoopF P (64 * P.nlimbs) u b).2)
          hpw hplen (sub_noborrow_wf _ _ _)
          (by rw [sub_noborrow_length, hplen, hqlen]; simp)
          hgb' hgs (by omega) hgcd'' hβ' hγ'' hsum''
        refine ⟨r, ?_, hr2, hr3⟩
        rw [hstep, if_neg hcmp]
        exact hr1

/-- Instantiating the loop invariants at `inverse`'s entry state
(`u = a`, `v = MODULUS`, `b = R2`, `c = 0`): any fuel with
`2M ≤ 2^f` lets the loop return a Montgomery-scaled inverse of `a`. -/
theorem beaLoop_from_init {P : FpParams} (hP : wellFormed P) (hprime : Nat.Prime (M P))
    {a : Fp} (ha : good P a) (hnz : bigVal a.limbs ≠ 0) (f : Nat)
    (hf : 2 * M P ≤ 2 ^ f) :
    ∃ r, beaLoop P f a.limbs P.MODULUS ⟨P.R2⟩ (zeroFp P) = some r ∧ good P r ∧
      (bigVal a.limbs : ZMod (M P)) * (bigVal r.limbs : ZMod (M P))
        = ((W ^ P.nlimbs : Nat) : ZMod (M P)) ^ 2 := by
  have hP' := hP
  obtain ⟨hL, hml, hmw, hRlen, hRw, hR2len, hR2w, hModd, hM1, hM2, hRval, hR2val, -⟩ := hP'
  have hMe : bigVal P.MODULUS = M P := rfl
  obtain ⟨halen, haw, haM⟩ := ha
  have hgR2 : good P (⟨P.R2⟩ : Fp) := by
    refine ⟨by simpa using hR2len, by simpa using hR2w, ?_⟩
    simp only [Fp_limbs_mk]
    rw [hR2val]
    exact Nat.mod_lt _ (by omega)
  have hgcd : Nat.gcd (bigVal a.limbs) (bigVal P.MODULUS) = 1 := by
    rw [hMe]
    have hnd : ¬ M P ∣ bigVal a.limbs := by
      intro hd
      have := Nat.le_of_dvd (by omega) hd
      omega
    exact Nat.Coprime.symm ((Nat.Prime.coprime_iff_not_dvd hprime).mpr hnd)
  have hβ : (bigVal a.limbs : ZMod (M P)) * (bigVal (⟨P.R2⟩ : Fp).limbs : ZMod (M P))
      = (bigVal a.limbs : ZMod (M P)) * ((W ^ P.nlimbs : Nat) : ZMod (M P)) ^ 2 := by
    simp only [Fp_limbs_mk]
    rw [hR2val, ZMod.natCast_mod, Nat.cast_mul]
    ring
  have hγ : (bigVal a.limbs : ZMod (M P)) * (bigVal (zeroFp P).limbs : ZMod (M P))
      = (bigVal P.MODULUS : ZMod (M P)) * ((W ^ P.nlimbs : Nat) : ZMod (M P)) ^ 2 := by
    rw [zeroFp_val, hMe, ZMod.natCast_self]
    push_cast
    ring
  have hsum : oddPart (bigVal a.limbs) + oddPart (bigVal P.MODULUS) < 2 ^ f := by
    have h1 := oddPart_le (bigVal a.limbs)
    have h2 : oddPart (bigVal P.MODULUS) = bigVal P.MODULUS := oddPart_of_odd (by omega)
    omega
  exact beaLoop_spec hP (bigVal a.limbs) f a.limbs P.MODULUS ⟨P.R2⟩ (zeroFp P)
    haw halen hmw hml hgR2 (zeroFp_good hP) (by omega) hgcd hβ hγ hsum

/-- `inverse` on a nonzero element of a prime field returns `some r` with
`a · r = one` (everything at the stored-representation level). -/
theorem inverse_spec {P : FpParams} (hP : wellFormed P) (hprime : Nat.Prime (M P))
    {a : Fp} (ha : good P a) (hnz : ¬ (fp_is_zero a = true)) :
    ∃ r, inverse P a = some r ∧ good P r ∧ mul_assign P a r = oneFp P := by
  have hnzv : bigVal a.limbs ≠ 0 := fun h => hnz ((fp_is_zero_iff ha).mpr h)
  have hP' := hP
  obtain ⟨hL, hml, hmw, hRlen, hRw, hR2len, hR2w, hModd, hM1, hM2, hRval, hR2val, -⟩ := hP'
  have hf : 2 * M P ≤ 2 ^ (bigVal a.limbs + M P + 1) := by
    have h1 : M P < 2 ^ (M P) := Nat.lt_two_pow _
    have h2 : 2 ^ (M P + 1) ≤ 2 ^ (bigVal a.limbs + M P + 1) :=
      Nat.pow_le_pow_right (by omega) (by omega)
    have h3 : 2 ^ (M P + 1) = 2 * 2 ^ (M P) := by rw [pow_succ]; ring
    omega
  obtain ⟨r, hr1, hr2, hr3⟩ := beaLoop_from_init hP hprime ha hnzv _ hf
  refine ⟨r, ?_, hr2, ?_⟩
  · unfold inverse
    rw [if_neg hnz]
    exact hr1
  · obtain ⟨hmgood, hmcong⟩ := mul_assign_spec hP ha hr2
    obtain ⟨hmlen, hmw2, hmM⟩ := hmgood
    have hcast : ((bigVal (mul_assign P a r).limbs * W ^ P.nlimbs : Nat) : ZMod (M P))
        = ((bigVal a.limbs * bigVal r.limbs : Nat) : ZMod (M P)) :=
      (ZMod.natCast_eq_natCast_iff _ _ _).mpr hmcong
    rw [Nat.cast_mul, Nat.cast_mul] at hcast
    have hρ : IsUnit (((W ^ P.nlimbs : Nat) : ZMod (M P))) := by
      rw [ZMod.isUnit_iff_coprime]
      exact coprime_W_pow_M hP
    have hmul_r : (bigVal (mul_assign P a r).limbs : ZMod (M P))
        = ((W ^ P.nlimbs : Nat) : ZMod (M P)) := by
      apply hρ.mul_left_cancel
      calc ((W ^ P.nlimbs : Nat) : ZMod (M P)) * (bigVal (mul_assign P a r).limbs : ZMod (M P))
          = (bigVal (mul_assign P a r).limbs : ZMod (M P))
            * ((W ^ P.nlimbs : Nat) : ZMod (M P)) := by ring
        _ = (bigVal a.limbs : ZMod (M P)) * (bigVal r.limbs : ZMod (M P)) := hcast
        _ = ((W ^ P.nlimbs : Nat) : ZMod (M P)) ^ 2 := hr3
        _ = ((W ^ P.nlimbs : Nat) : ZMod (M P)) * ((W ^ P.nlimbs : Nat) : ZMod (M P)) := sq _
    have hone : (bigVal (oneFp P).limbs : ZMod (M P)) = ((W ^ P.nlimbs : Nat) : ZMod (M P)) := by
      show (bigVal P.R : ZMod (M P)) = _
      rw [hRval, ZMod.natCast_mod]
    have heqv : bigVal (mul_assign P a r).limbs = bigVal (oneFp P).limbs := by
      have hmm := (ZMod.natCast_eq_natCast_iff _ _ _).mp (hmul_r.trans hone.symm)
      have honeM : bigVal (oneFp P).limbs < M P := (oneFp_good hP).2.2
      have h' : bigVal (mul_assign P a r).limbs % M P = bigVal (oneFp P).limbs % M P := hmm
      rw [Nat.mod_eq_of_lt hmM, Nat.mod_eq_of_lt honeM] at h'
      exact h'
    apply Fp.ext
    exact bigVal_inj hmw2 (oneFp_good hP).2.1 (by rw [hmlen, (oneFp_good hP).1]) heqv

/-- C3: `inverse(a)` returns `None` if and only if `a` is the zero element;
for every nonzero `a` it returns `Some r` with `a * r = one()`. -/
theorem C3_inverse_none_iff_zero {P : FpParams} (hP : wellFormed P)
    (hprime : Nat.Prime (M P)) {a : Fp} (ha : good P a) :
    (inverse P a = none ↔ fp_is_zero a = true) ∧
    (fp_is_zero a = false →
      ∃ r, inverse P a = some r ∧ mul_assign P a r = oneFp P) := by
  constructor
  · constructor
    · intro h
      by_contra hz
      obtain ⟨r, hr1, -, -⟩ := inverse_spec hP hprime ha hz
      rw [h] at hr1
      exact Option.noConfusion hr1
    · intro h
      unfold inverse
      rw [if_pos h]
  · intro h
    obtain ⟨r, hr1, -, hr3⟩ := inverse_spec hP hprime ha (by simp [h])
    exact ⟨r, hr1, hr3⟩

/-- C9: on every nonzero element of a prime field the outer inversion loop
reaches its exit within `MODULUS_BITS` iterations: fuel covering
`MODULUS_BITS + 1` evaluations of the loop condition suffices for the loop
to return a result. -/
theorem C9_inversion_loop_bounded {P : FpParams} (hP : wellFormed P)
    (hprime : Nat.Prime (M P)) {a : Fp} (ha : good P a)
    (hnz : fp_is_zero a = false) :
    ∃ r, beaLoop P (P.MODULUS_BITS + 1) a.limbs P.MODULUS ⟨P.R2⟩ (zeroFp P) = some r := by
  have hnzv : bigVal a.limbs ≠ 0 := by
    intro h
    rw [(fp_is_zero_iff ha).mpr h] at hnz
    exact Bool.noConfusion hnz
  have hP' := hP
  obtain ⟨-, -, -, -, -, -, -, -, -, -, -, -, -, -, -, -, hBu, -, -⟩ := hP'
  have hf : 2 * M P ≤ 2 ^ (P.MODULUS_BITS + 1) := by
    have hpow : 2 ^ (P.MODULUS_BITS + 1) = 2 * 2 ^ P.MODULUS_BITS := by
      rw [pow_succ]; ring
    omega
  obtain ⟨r, hr1, -, -⟩ := beaLoop_from_init hP hprime ha hnzv _ hf
  exact ⟨r, hr1⟩

/-- `halveB` keeps the accumulator good: a value below `M` stays below `M`
after the (possibly modulus-shifted) halving. -/
theorem halveB_good {P : FpParams} (hP : wellFormed P) {e : Fp} (he : good P e) :
    good P (halveB P e) := by
  have hP' := hP
  obtain ⟨hL, hml, hmw, -, -, -, -, -, hM1, hM2, -⟩ := hP'
  have hMe : bigVal P.MODULUS = M P := rfl
  obtain ⟨helen, hew, heM⟩ := he
  unfold halveB
  by_cases hee : is_even e.limbs = true
  · rw [if_pos hee]
    refine ⟨?_, div2_wf _ hew, ?_⟩
    · simp only [Fp_limbs_mk, div2_length, helen]
    · simp only [Fp_limbs_mk, div2_val]
      omega
  · rw [if_neg hee]
    have hadd := add_nocarry_val e.limbs P.MODULUS 0 hew hmw (by omega) (by omega)
      (by rw [helen]; omega)
    refine ⟨?_, div2_wf _ (add_nocarry_wf _ _ _), ?_⟩
    · simp only [Fp_limbs_mk, div2_length, add_nocarry_length, helen, hml]
      simp
    · simp only [Fp_limbs_mk, div2_val, hadd]
      omega

/-- The inner halving loop keeps its working value well-shaped and its
accumulator good, with any fuel. -/
theorem halveLoopF_good {P : FpParams} (hP : wellFormed P) :
    ∀ (f : Nat) (x : List Nat) (e : Fp), wfLimbs x → x.length = P.nlimbs → good P e →
    wfLimbs (halveLoopF P f x e).1 ∧ (halveLoopF P f x e).1.length = P.nlimbs ∧
      good P (halveLoopF P f x e).2
  | 0, x, e, hw, hlen, hge => ⟨hw, hlen, hge⟩
  | f + 1, x, e, hw, hlen, hge => by
    by_cases hev : is_even x = true
    · have hstep : halveLoopF P (f + 1) x e = halveLoopF P f (div2 x) (halveB P e) := by
        simp [halveLoopF, hev]
      rw [hstep]
      exact halveLoopF_good hP f (div2 x) (halveB P e) (div2_wf _ hw)
        (by rw [div2_length, hlen]) (halveB_good hP hge)
    · have hstep : halveLoopF P (f + 1) x e = (x, e) := by
        simp [halveLoopF, hev]
      rw [hstep]
      exact ⟨hw, hlen, hge⟩

/-- Anything the outer inversion loop returns is good, with any fuel and no
arithmetic side conditions. -/
theorem beaLoop_good {P : FpParams} (hP : wellFormed P) :
    ∀ (f : Nat) (u v : List Nat) (b c : Fp), wfLimbs u → u.length = P.nlimbs →
    wfLimbs v → v.length = P.nlimbs → good P b → good P c →
    ∀ r, beaLoop P f u v b c = some r → good P r
  | 0, _, _, _, _, _, _, _, _, _, _, r, h => by simp [beaLoop] at h
  | f + 1, u, v, b, c, hwu, hul, hwv, hvl, hgb, hgc, r, h => by
    by_cases hexit : u = oneLimbs P ∨ v = oneLimbs P
    · have hunf : beaLoop P (f + 1) u v b c =
          if u = oneLimbs P then some b else some c := by
        simp only [beaLoop]
        rw [if_pos hexit]
      rw [hunf] at h
      by_cases hu1 : u = oneLimbs P
      · rw [if_pos hu1] at h
        cases h
        exact hgb
      · rw [if_neg hu1] at h
        cases h
        exact hgc
    · obtain ⟨hpw, hplen, hgb'⟩ := halveLoopF_good hP (64 * P.nlimbs) u b hwu hul hgb
      obtain ⟨hqw, hqlen, hgc'⟩ := halveLoopF_good hP (64 * P.nlimbs) v c hwv hvl hgc
      have hunf : beaLoop P (f + 1) u v b c =
          (if ltBig (halveLoopF P (64 * P.nlimbs) v c).1
              (halveLoopF P (64 * P.nlimbs) u b).1 then
            beaLoop P f
              (sub_noborrow (halveLoopF P (64 * P.nlimbs) u b).1
                (halveLoopF P (64 * P.nlimbs) v c).1 0)
              (halveLoopF P (64 * P.nlimbs) v c).1
              (sub_assign P (halveLoopF P (64 * P.nlimbs) u b).2
                (halveLoopF P (64 * P.nlimbs) v c).2)
              (halveLoopF P (64 * P.nlimbs) v c).2
          else
            beaLoop P f (halveLoopF P (64 * P.nlimbs) u b).1
              (sub_noborrow (halveLoopF P (64 * P.nlimbs) v c).1
                (halveLoopF P (64 * P.nlimbs) u b).1 0)
              (halveLoopF P (64 * P.nlimbs) u b).2
              (sub_assign P (halveLoopF P (64 * P.nlimbs) v c).2
                (halveLoopF P (64 * P.nlimbs) u b).2)) := by
        simp only [beaLoop]
        rw [if_neg hexit]
      rw [hunf] at h
      by_cases hcmp : ltBig (halveLoopF P (64 * P.nlimbs) v c).1
          (halveLoopF P (64 * P.nlimbs) u b).1 = true
      · rw [if_pos hcmp] at h
        exact beaLoop_good hP f _ _ _ _ (sub_noborrow_wf _ _ _)
          (by rw [sub_noborrow_length, hplen, hqlen]; simp) hqw hqlen
          (sub_assign_spec hP hgb' hgc').1 hgc' r h
      · rw [if_neg hcmp] at h
        exact beaLoop_good hP f _ _ _ _ hpw hplen (sub_noborrow_wf _ _ _)
          (by rw [sub_noborrow_length, hqlen, hplen]; simp) hgb'
          (sub_assign_spec hP hgc' hgb').1 r h

/-- `inverse` preserves the invariant whenever it returns an element. -/
theorem inverse_good {P : FpParams} (hP : wellFormed P) {a : Fp} (ha : good P a)
    {r : Fp} (h : inverse P a = some r) : good P r := by
  unfold inverse at h
  by_cases hz : fp_is_zero a = true
  · rw [if_pos hz] at h
    exact Option.noConfusion h
  · rw [if_neg hz] at h
    have hP' := hP
    obtain ⟨hL, hml, hmw, hRlen, hRw, hR2len, hR2w, hModd, hM1, hM2, hRval, hR2val, -⟩ := hP'
    have hgR2 : good P (⟨P.R2⟩ : Fp) := by
      refine ⟨by simpa using hR2len, by simpa using hR2w, ?_⟩
      simp only [Fp_limbs_mk]
      rw [hR2val]
      exact Nat.mod_lt _ (by omega)
    exact beaLoop_good hP _ _ _ _ _ ha.2.1 ha.1 hmw hml hgR2 (zeroFp_good hP) r h

/-- `from_repr` preserves the invariant whenever it returns an element. -/
theorem from_repr_good {P : FpParams} (hP : wellFormed P) {r : List Nat}
    (hw : wfLimbs r) (hlen : r.length = P.nlimbs) {f : Fp}
    (h : from_repr P r = some f) : good P f := by
  rcases Nat.lt_or_ge (bigVal r) (M P) with hlt | hge
  · obtain ⟨g, hg1, hg2, -⟩ := (from_repr_spec hP r hw hlen).1 hlt
    rw [hg1] at h
    cases h
    exact hg2
  · rw [(from_repr_spec hP r hw hlen).2 hge] at h
    exact Option.noConfusion h

/-- The integer constructors always produce a good element. -/
theorem ofNatFp_good {P : FpParams} (hP : wellFormed P) (n : Nat) :
    good P (ofNatFp P n) := by
  unfold ofNatFp
  cases hfr : from_repr P (natToLimbs P.nlimbs (n % W)) with
  | none => simpa using zeroFp_good hP
  | some f =>
    have := from_repr_good hP (natToLimbs_wf _ _) (natToLimbs_length _ _) hfr
    simpa using this

/-- The digit loop of `from_str` preserves the invariant. -/
theorem from_str_go_good {P : FpParams} (hP : wellFormed P) :
    ∀ (s : List Char) (res : Fp) (first : Bool), good P res →
    ∀ f, from_str_go P s res first = Except.ok f → good P f
  | [], res, _, hres, f, h => by
    unfold from_str_go at h
    by_cases hv : fp_is_valid P res = true
    · rw [if_pos hv] at h
      cases h
      exact hres
    · rw [if_neg hv] at h
      exact Except.noConfusion h
  | ch :: rest, res, first, hres, f, h => by
    cases hd : to_digit ch with
    | none =>
      simp only [from_str_go, hd] at h
      exact Except.noConfusion h
    | some d =>
      simp only [from_str_go, hd] at h
      by_cases hfz : first = true ∧ d = 0
      · rw [if_pos hfz] at h
        exact Except.noConfusion h
      · rw [if_neg hfz] at h
        exact from_str_go_good hP rest _ false
          (add_assign_spec hP
            (mul_assign_spec hP hres (ofNatFp_good hP 10)).1 (ofNatFp_good hP d)).1 f h

/-- `from_str` preserves the invariant whenever it returns an element. -/
theorem from_str_good {P : FpParams} (hP : wellFormed P) (s : List Char) {f : Fp}
    (h : from_str P s = Except.ok f) : good P f := by
  unfold from_str at h
  by_cases h0 : s = []
  · rw [if_pos h0] at h
    exact Except.noConfusion h
  · rw [if_neg h0] at h
    by_cases h1 : s = ['0']
    · rw [if_pos h1] at h
      cases h
      exact zeroFp_good hP
    · rw [if_neg h1] at h
      exact from_str_go_good hP s (zeroFp P) true (zeroFp_good hP) f h

/-- `FromBytes::read` preserves the invariant whenever it returns an
element. -/
theorem fpRead_good {P : FpParams} (hP : wellFormed P) {bytes : List Nat}
    (hbw : wfBytes bytes) {f : Fp} (h : fpRead P bytes = Except.ok f) : good P f := by
  unfold fpRead at h
  by_cases hlen : bytes.length < 8 * P.nlimbs
  · rw [if_pos hlen] at h
    exact Except.noConfusion h
  · rw [if_neg hlen] at h
    cases hfr : from_repr P (bytesToLimbs P.nlimbs bytes) with
    | none =>
      rw [hfr] at h
      exact Except.noConfusion h
    | some g =>
      rw [hfr] at h
      cases h
      obtain ⟨hl1, hl2, -⟩ := bytesToLimbs_spec P.nlimbs bytes hbw (by omega)
      exact from_repr_good hP hl2 hl1 hfr

theorem wfBytes_take (n : Nat) {bs : List Nat} (h : wfBytes bs) :
    wfBytes (bs.take n) := fun b hb => h b (List.mem_of_mem_take hb)

theorem wfBytes_drop (n : Nat) {bs : List Nat} (h : wfBytes bs) :
    wfBytes (bs.drop n) := fun b hb => h b (List.mem_of_mem_drop hb)

theorem wfBytes_append {as bs : List Nat} (ha : wfBytes as) (hb : wfBytes bs) :
    wfBytes (as ++ bs) := fun b hbm => (List.mem_append.mp hbm).elim (ha b) (hb b)

theorem wfBytes_replicate_zero (n : Nat) : wfBytes (List.replicate n 0) :=
  fun b hb => by rw [List.eq_of_mem_replicate hb]; omega

theorem wfBytes_zipWith_and : ∀ (as bs : List Nat), wfBytes as →
    wfBytes (List.zipWith (fun b m => b &&& m) as bs)
  | [], _, _ => by simp [wfBytes]
  | _ :: _, [], _ => by simp [wfBytes]
  | a :: as, b :: bs, h => by
    intro x hx
    rw [List.zipWith_cons_cons, List.mem_cons] at hx
    rcases hx with hx | hx
    · have ha : a < 256 := h a (List.mem_cons_self _ _)
      calc x = a &&& b := hx
        _ ≤ a := Nat.and_le_left
        _ < 256 := ha
    · exact wfBytes_zipWith_and as bs (fun y hy => h y (List.mem_cons_of_mem _ hy)) x hx

/-- `CanonicalDeserialize::deserialize` preserves the invariant whenever it
returns an element. -/
theorem fpDeserialize_good {P : FpParams} (hP : wellFormed P) {input : List Nat}
    (hw : wfBytes input) {f : Fp} (h : fpDeserialize P input = Except.ok f) :
    good P f := by
  unfold fpDeserialize at h
  by_cases hlen : input.length < buffer_byte_size P.MODULUS_BITS
  · rw [if_pos hlen] at h
    exact Except.noConfusion h
  · rw [if_neg hlen] at h
    exact fpRead_good hP
      (wfBytes_append (wfBytes_take _ hw) (wfBytes_replicate_zero _)) h

/-- The copied buffer is made of bytes. -/
theorem frbwf_result_bytes_wf {P : FpParams} {bytes : List Nat}
    (hbw : wfBytes bytes) : wfBytes (frbwf_result_bytes P bytes) :=
  wfBytes_take _ (wfBytes_append hbw (wfBytes_replicate_zero _))

/-- The masked buffer is made of bytes. -/
theorem frbwf_masked_wf {P : FpParams} {bytes : List Nat}
    (hbw : wfBytes bytes) : wfBytes (frbwf_masked P bytes) :=
  wfBytes_append (wfBytes_take _ (frbwf_result_bytes_wf hbw))
    (wfBytes_zipWith_and _ _ (wfBytes_drop _ (frbwf_result_bytes_wf hbw)))

/-- C2: every field-element operation — `add_assign`, `sub_assign`, `neg`,
`double_in_place`, `mul_assign`, `square_in_place`, `inverse`, `from_repr`,
byte deserialization (`FromBytes::read`) and decimal string parsing —
preserves the representation invariant `good` (well-shaped limbs with
stored value strictly below `M`). -/
theorem C2_operations_preserve_invariant {P : FpParams} (hP : wellFormed P) :
    (∀ a b : Fp, good P a → good P b → good P (add_assign P a b)) ∧
    (∀ a b : Fp, good P a → good P b → good P (sub_assign P a b)) ∧
    (∀ a : Fp, good P a → good P (neg P a)) ∧
    (∀ a : Fp, good P a → good P (double_in_place P a)) ∧
    (∀ a b : Fp, good P a → good P b → good P (mul_assign P a b)) ∧
    (∀ a : Fp, good P a → good P (square_in_place P a)) ∧
    (∀ a r : Fp, good P a → inverse P a = some r → good P r) ∧
    (∀ r : List Nat, wfLimbs r → r.length = P.nlimbs →
      ∀ f : Fp, from_repr P r = some f → good P f) ∧
    (∀ bytes : List Nat, wfBytes bytes →
      ∀ f : Fp, fpRead P bytes = Except.ok f → good P f) ∧
    (∀ s : List Char, ∀ f : Fp, from_str P s = Except.ok f → good P f) := by
  refine ⟨fun a b ha hb => (add_assign_spec hP ha hb).1,
    fun a b ha hb => (sub_assign_spec hP ha hb).1,
    fun a ha => (neg_spec hP ha).1,
    fun a ha => (double_in_place_spec hP ha).1,
    fun a b ha hb => (mul_assign_spec hP ha hb).1,
    fun a ha => (mul_assign_spec hP ha ha).1,
    fun a r ha h => inverse_good hP ha h,
    fun r hw hlen f h => from_repr_good hP hw hlen h,
    fun bytes hbw f h => fpRead_good hP hbw h,
    fun s f h => from_str_good hP s h⟩

/-- C7: refuted — the final `is_valid` check of `from_str` is vacuous
because the accumulator is reduced after every arithmetic step, so the
well-formed digit string `"17"` (non-empty, no leading zero, all decimal
digits), whose numeric value 17 equals the modulus of `P17`, parses
successfully to the wrapped-around zero element instead of failing. -/
theorem C7_from_str_accepts_value_at_modulus :
    wellFormed P17 ∧ M P17 = 17 ∧
    from_str P17 ['1', '7'] = Except.ok (zeroFp P17) :=
  ⟨by decide, by decide, rfl⟩

/-- C10 counterexample: for the one-limb modulus 251, `REPR_SHAVE_BITS = 56`
is a multiple of 8 and the flag-mask computation
`((1 << 56 % 8) - 1) << (8 - 56 % 8)` shifts a `u8` by a full 8 bits, an
arithmetic panic (the outer `none`), on every input — here the all-zero
8-byte input. -/
theorem C10_counterexample_shave_multiple_of_8 :
    wellFormed P251 ∧ P251.REPR_SHAVE_BITS % 8 = 0 ∧
    from_random_bytes_with_flags P251 (List.replicate 8 0) = none :=
  ⟨by decide, by decide, rfl⟩

/-- C10 (amended): whenever `REPR_SHAVE_BITS` is not a multiple of 8 (it is
below 64 for every well-formed parameter set), `from_random_bytes_with_flags`
evaluates without panicking — every shift amount and index stays in range —
and returns `None` or a valid element paired with the extracted flag
byte. -/
theorem C10_no_panic_when_shave_not_multiple_of_8 {P : FpParams}
    (hP : wellFormed P) (h8 : P.REPR_SHAVE_BITS % 8 ≠ 0)
    (bytes : List Nat) (hbw : wfBytes bytes) :
    ∃ o, from_random_bytes_with_flags P bytes = some o ∧
      ∀ f fl, o = some (f, fl) → good P f := by
  have hP' := hP
  obtain ⟨hL, hml, hmw, hRlen, hRw, hR2len, hR2w, hModd, hM1, hM2, hRval, hR2val,
    hIlt, hinv, hbp, hblo, hbhi, hbmin, hshave⟩ := hP'
  have h64 : ¬ 64 ≤ P.REPR_SHAVE_BITS := by omega
  unfold from_random_bytes_with_flags
  rw [if_neg h64, if_neg h8]
  cases hdes : fpDeserialize P (frbwf_masked P bytes) with
  | ok f =>
    refine ⟨some (f, frbwf_flagByte P bytes), rfl, ?_⟩
    intro g fl hg
    injection hg with h2
    injection h2 with h3 h4
    subst h3
    exact fpDeserialize_good hP (frbwf_masked_wf hbw) hdes
  | error e =>
    exact ⟨none, rfl, fun f fl h => Option.noConfusion h⟩

/-- C1 at the concrete parameters `P17` and the elements stored as 2, 3. -/
theorem C1_witness :
    wellFormed P17 ∧ good P17 ⟨[2]⟩ ∧ good P17 ⟨[3]⟩ ∧
    bigVal (into_repr P17 (mul_assign P17 ⟨[2]⟩ ⟨[3]⟩)) =
      bigVal (into_repr P17 ⟨[2]⟩) * bigVal (into_repr P17 ⟨[3]⟩) % M P17 :=
  ⟨by decide, by decide, by decide,
   C1_mul_matches_reference_product P17 (by decide) ⟨[2]⟩ ⟨[3]⟩ (by decide) (by decide)⟩

/-- C2 at the concrete parameters `P17`. -/
theorem C2_witness :
    wellFormed P17 ∧
    ((∀ a b : Fp, good P17 a → good P17 b → good P17 (add_assign P17 a b)) ∧
     (∀ a b : Fp, good P17 a → good P17 b → good P17 (sub_assign P17 a b)) ∧
     (∀ a : Fp, good P17 a → good P17 (neg P17 a)) ∧
     (∀ a : Fp, good P17 a → good P17 (double_in_place P17 a)) ∧
     (∀ a b : Fp, good P17 a → good P17 b → good P17 (mul_assign P17 a b)) ∧
     (∀ a : Fp, good P17 a → good P17 (square_in_place P17 a)) ∧
     (∀ a r : Fp, good P17 a → inverse P17 a = some r → good P17 r) ∧
     (∀ r : List Nat, wfLimbs r → r.length = P17.nlimbs →
       ∀ f : Fp, from_repr P17 r = some f → good P17 f) ∧
     (∀ bytes : List Nat, wfBytes bytes →
       ∀ f : Fp, fpRead P17 bytes = Except.ok f → good P17 f) ∧
     (∀ s : List Char, ∀ f : Fp, from_str P17 s = Except.ok f → good P17 f)) :=
  ⟨by decide, C2_operations_preserve_invariant (by decide)⟩

/-- C3 at the concrete parameters `P17` and the element stored as 2. -/
theorem C3_witness :
    wellFormed P17 ∧ Nat.Prime (M P17) ∧ good P17 ⟨[2]⟩ ∧
    ((inverse P17 ⟨[2]⟩ = none ↔ fp_is_zero ⟨[2]⟩ = true) ∧
     (fp_is_zero ⟨[2]⟩ = false →
       ∃ r, inverse P17 ⟨[2]⟩ = some r ∧ mul_assign P17 ⟨[2]⟩ r = oneFp P17)) :=
  ⟨by decide, by decide, by decide,
   C3_inverse_none_iff_zero (by decide) (by decide) (by decide)⟩

/-- C4 at the concrete parameters `P17`. -/
theorem C4_witness :
    wellFormed P17 ∧
    ((∀ r : List Nat, wfLimbs r → r.length = P17.nlimbs →
        (bigVal r < M P17 → ∃ f, from_repr P17 r = some f ∧ good P17 f ∧
            bigVal f.limbs = bigVal r * bigVal P17.R % M P17) ∧
        (M P17 ≤ bigVal r → from_repr P17 r = none)) ∧
     (∀ bs : List Nat, wfBytes bs → bs.length = 8 * P17.nlimbs →
        M P17 ≤ bytesVal bs → fpRead P17 bs = .error ())) :=
  ⟨by decide, C4_from_repr_accepts_below_M P17 (by decide)⟩

/-- C5 at the concrete parameters `P17`, the element stored as 2, a 2-bit
flag set of value 3. -/
theorem C5_witness :
    (wellFormed P17 ∧ good P17 ⟨[2]⟩ ∧ 2 ≤ 8 ∧
      2 ≤ 8 * buffer_byte_size P17.MODULUS_BITS - P17.MODULUS_BITS ∧ 3 < 2 ^ 2) ∧
    ∃ out, serialize_with_flags P17 ⟨[2]⟩ 2 3 = Except.ok out ∧
      deserialize_with_flags P17 out 2 = Except.ok (⟨[2]⟩, 3) :=
  ⟨⟨by decide, by decide, by decide, by decide, by decide⟩,
   C5_serialize_round_trip P17 (by decide) ⟨[2]⟩ (by decide) 2 3 (by decide) (by decide)
     (by decide)⟩

/-- C6 at the concrete parameters `P17` and a 4-bit flag type (3 spare
bits). -/
theorem C6_witness :
    (8 * buffer_byte_size P17.MODULUS_BITS - P17.MODULUS_BITS < 4) ∧
    serialize_with_flags P17 ⟨[2]⟩ 4 0 = Except.error () :=
  ⟨by decide, C6_serialize_rejects_wide_flags P17 ⟨[2]⟩ 4 0 (by decide)⟩

/-- C8 at the concrete parameters `P17` and the element stored as 5. -/
theorem C8_witness :
    wellFormed P17 ∧ good P17 ⟨[5]⟩ ∧
    from_repr P17 (into_repr P17 ⟨[5]⟩) = some ⟨[5]⟩ :=
  ⟨by decide, by decide, C8_from_repr_into_repr P17 (by decide) ⟨[5]⟩ (by decide)⟩

/-- C9 at the concrete parameters `P17` and the element stored as 3. -/
theorem C9_witness :
    wellFormed P17 ∧ Nat.Prime (M P17) ∧ good P17 ⟨[3]⟩ ∧
    fp_is_zero ⟨[3]⟩ = false ∧
    ∃ r, beaLoop P17 (P17.MODULUS_BITS + 1) (Fp.mk [3]).limbs P17.MODULUS
      ⟨P17.R2⟩ (zeroFp P17) = some r :=
  ⟨by decide, by decide, by decide, by decide,
   C9_inversion_loop_bounded (by decide) (by decide) (by decide) (by decide)⟩

/-- The amended C10 at the concrete parameters `P17` (59 shaved bits, not a
multiple of 8) and an all-ones 8-byte input. -/
theorem C10_witness :
    (wellFormed P17 ∧ P17.REPR_SHAVE_BITS % 8 ≠ 0 ∧
      wfBytes [255, 255, 255, 255, 255, 255, 255, 255]) ∧
    ∃ o, from_random_bytes_with_flags P17
        [255, 255, 255, 255, 255, 255, 255, 255] = some o ∧
      ∀ f fl, o = some (f, fl) → good P17 f :=
  ⟨⟨by decide, by decide, by decide⟩,
   C10_no_panic_when_shave_not_multiple_of_8 (by decide) (by decide) _ (by decide)⟩

end ArkFp
